import Mathlib

/-!
Verification of the mini-workspace ingestion & retrieval pipeline.

Shallow embedding of the core logic of the repository:
* `src/lib/rateLimit.ts` — fixed-window rate limiting over an in-memory map,
* `src/lib/embeddings.ts` — retry/backoff around the embedding provider,
* the upload/list/delete route (chunker `chunkText`, text extraction,
  ingest orchestration) and the ask route,
* `src/lib/pinecone.ts` — namespaced access to the vector index.

Strings are modelled as `List Char`; timestamps and durations as `Nat`
milliseconds.  The external vector index is modelled as a total map from
namespace to the list of records stored in that namespace; the similarity
ranking of a query is abstracted as store order (only the metadata filter,
the namespace scoping and the `topK` cap are modelled, which is all the
claims depend on).
-/

set_option autoImplicit false

namespace MiniWs

/-! ### Rate limiting (`src/lib/rateLimit.ts`) -/

/-- `RateLimitEntry` mirrors `interface RateLimitEntry {count; resetTime}`. -/
structure RateLimitEntry where
  count : Nat
  resetTime : Nat
deriving DecidableEq

/-- `RateLimitConfig` mirrors `interface RateLimitConfig {windowMs; maxRequests}`. -/
structure RateLimitConfig where
  windowMs : Nat
  maxRequests : Nat
deriving DecidableEq

def defaultConfig : RateLimitConfig := ⟨60 * 1000, 30⟩

def uploadRateLimit : RateLimitConfig := ⟨60 * 1000, 10⟩

def askRateLimit : RateLimitConfig := ⟨60 * 1000, 20⟩

def healthRateLimit : RateLimitConfig := ⟨60 * 1000, 60⟩

/-- Result record of `checkRateLimit` (`{allowed, remaining, resetIn}`). -/
structure RateLimitResult where
  allowed : Bool
  remaining : Nat
  resetIn : Nat
deriving DecidableEq

/-- The module-level `rateLimitStore : Map<string, RateLimitEntry>`,
keyed by the ip string alone, modelled as an association list. -/
abbrev RateLimitStore := List (String × RateLimitEntry)

/-- `rateLimitStore.get(ip)`. -/
def storeGet : RateLimitStore → String → Option RateLimitEntry
  | [], _ => none
  | kv :: rest, k => if kv.1 == k then some kv.2 else storeGet rest k

/-- `rateLimitStore.set(ip, v)`: replace the binding if present, else append. -/
def storeSet : RateLimitStore → String → RateLimitEntry → RateLimitStore
  | [], k, v => [(k, v)]
  | kv :: rest, k, v => if kv.1 == k then (k, v) :: rest else kv :: storeSet rest k v

/-- `checkRateLimit(ip, config)` from `src/lib/rateLimit.ts`, with the ambient
`Date.now()` and the mutable store made explicit.  The entry is read before
the opportunistic cleanup (size > 10000 drops expired entries), exactly as in
the source. -/
def checkRateLimit (now : Nat) (store : RateLimitStore) (ip : String)
    (config : RateLimitConfig) : RateLimitResult × RateLimitStore :=
  let entry := storeGet store ip
  let store1 :=
    if 10000 < store.length then
      store.filter (fun kv => ¬ kv.2.resetTime < now)
    else store
  match entry with
  | none =>
      (⟨true, config.maxRequests - 1, config.windowMs⟩,
       storeSet store1 ip ⟨1, now + config.windowMs⟩)
  | some e =>
      if e.resetTime < now then
        (⟨true, config.maxRequests - 1, config.windowMs⟩,
         storeSet store1 ip ⟨1, now + config.windowMs⟩)
      else if config.maxRequests ≤ e.count then
        (⟨false, 0, e.resetTime - now⟩, store1)
      else
        (⟨true, config.maxRequests - (e.count + 1), e.resetTime - now⟩,
         storeSet store1 ip ⟨e.count + 1, e.resetTime⟩)

/-- A sequence of `checkRateLimit` calls at the given timestamps, threading
the store; returns the list of results and the final store. -/
def runCalls (config : RateLimitConfig) (ip : String) :
    RateLimitStore → List Nat → List RateLimitResult × RateLimitStore
  | store, [] => ([], store)
  | store, t :: ts =>
      let r := checkRateLimit t store ip config
      let rest := runCalls config ip r.2 ts
      (r.1 :: rest.1, rest.2)

/-! ### Embedding gateway (`src/lib/embeddings.ts`) -/

def MAX_RETRIES : Nat := 5

def INITIAL_BACKOFF_MS : Nat := 1000

/-- One HTTP response of the embedding provider, as observed by
`getEmbedding`: the status code, the embedding carried by a successful
body, and the error text of a failing body. -/
structure ApiResponse where
  status : Nat
  embedding : List Int
  errorText : String
deriving DecidableEq

/-- `response.ok` of `fetch`: status in the range 200–299. -/
def respOk (r : ApiResponse) : Bool :=
  decide (200 ≤ r.status) && decide (r.status < 300)

/-- The retry condition of `getEmbedding`: status 429 or a 5xx-class error. -/
def respTransient (r : ApiResponse) : Bool :=
  decide (r.status = 429) || decide (500 ≤ r.status)

instance {ε α : Type} [DecidableEq ε] [DecidableEq α] : DecidableEq (Except ε α) := fun x y =>
  match x, y with
  | .ok a, .ok b => decidable_of_iff (a = b) (by simp)
  | .error a, .error b => decidable_of_iff (a = b) (by simp)
  | .ok _, .error _ => isFalse (fun h => Except.noConfusion h)
  | .error _, .ok _ => isFalse (fun h => Except.noConfusion h)

/-- Observable trace of one `getEmbedding` call: its outcome, how many
provider requests were issued, and the list of backoff sleeps performed
(in order, in milliseconds). -/
structure EmbedRun where
  result : Except String (List Int)
  attempts : Nat
  delays : List Nat
deriving DecidableEq

/-- The retry loop body of `getEmbedding`: `attempt` is the loop counter,
`remaining` the number of loop iterations left (`MAX_RETRIES - attempt`),
`lastError` the `lastError` variable.  The provider is a function from the
attempt number to the response of that attempt. -/
def getEmbeddingLoop (provider : Nat → ApiResponse) :
    Nat → Nat → Option String → EmbedRun
  | _, 0, lastError =>
      ⟨.error (lastError.getD "NVIDIA API error: max retries exceeded"), 0, []⟩
  | attempt, remaining + 1, _ =>
      let r := provider attempt
      if respOk r then ⟨.ok r.embedding, 1, []⟩
      else if respTransient r then
        let backoffMs := INITIAL_BACKOFF_MS * 2 ^ attempt
        let rest := getEmbeddingLoop provider (attempt + 1) remaining
          (some ("NVIDIA API error: " ++ r.errorText))
        ⟨rest.result, rest.attempts + 1, backoffMs :: rest.delays⟩
      else ⟨.error ("NVIDIA API error: " ++ r.errorText), 1, []⟩

/-- `getEmbedding` from `src/lib/embeddings.ts` (the `NVIDIA_API_KEY`
presence check is assumed satisfied; the provider abstracts `fetch`). -/
def getEmbedding (provider : Nat → ApiResponse) : EmbedRun :=
  getEmbeddingLoop provider 0 MAX_RETRIES none

/-! ### Chunker (`chunkText` in the upload route)

JS strings are modelled as `List Char`.  `isWS` models the JavaScript
whitespace class `\s` (and `String.trim`) restricted to its ASCII part;
the split regexes `/\n\n+/` and `/\s+/` are modelled by the run-splitting
functions below with exactly the JS `String.split` semantics (leading,
trailing and empty-input behaviour included). -/

/-- Whitespace as used by `\s+` and `trim` (ASCII part). -/
def isWS (c : Char) : Bool :=
  c == ' ' || c == '\t' || c == '\n' || c == '\r' || c == '\x0b' || c == '\x0c'

/-- JS `String.prototype.trim`. -/
def trim (s : List Char) : List Char :=
  ((s.dropWhile isWS).reverse.dropWhile isWS).reverse

/-- State of the `split(/\n\n+/)` scan: finished tokens, current token,
and the number of newlines seen since the last non-newline character. -/
def sbStep (st : List (List Char) × List Char × Nat) (c : Char) :
    List (List Char) × List Char × Nat :=
  if c = '\n' then (st.1, st.2.1, st.2.2 + 1)
  else if 2 ≤ st.2.2 then (st.1 ++ [st.2.1], [c], 0)
  else (st.1, st.2.1 ++ List.replicate st.2.2 '\n' ++ [c], 0)

/-- Token list produced from a final `sbStep` state. -/
def sbFinish (st : List (List Char) × List Char × Nat) : List (List Char) :=
  if 2 ≤ st.2.2 then st.1 ++ [st.2.1, []]
  else st.1 ++ [st.2.1 ++ List.replicate st.2.2 '\n']

/-- `text.split(/\n\n+/)`: split on maximal runs of two or more newlines
(a single newline stays inside its token), with the JS `String.split`
semantics for leading/trailing separators and the empty string. -/
def splitBlank (s : List Char) : List (List Char) :=
  sbFinish (s.foldl sbStep ([], [], 0))

/-- State of the `split(/\s+/)` scan: finished tokens, current token, and
whether the scan is inside a whitespace run. -/
def swStep (st : List (List Char) × List Char × Bool) (c : Char) :
    List (List Char) × List Char × Bool :=
  if isWS c then (st.1, st.2.1, true)
  else if st.2.2 then (st.1 ++ [st.2.1], [c], false)
  else (st.1, st.2.1 ++ [c], false)

/-- Token list produced from a final `swStep` state. -/
def swFinish (st : List (List Char) × List Char × Bool) : List (List Char) :=
  if st.2.2 then st.1 ++ [st.2.1, []] else st.1 ++ [st.2.1]

/-- `str.split(/\s+/)`: split on maximal runs of whitespace, with the JS
`String.split` semantics for leading/trailing runs and the empty string. -/
def splitWS (s : List Char) : List (List Char) :=
  swFinish (s.foldl swStep ([], [], false))

/-- The hard-split loop `for (i = 0; i < word.length; i += max)` slicing an
over-length word into `max`-sized pieces; fuelled so that it is total also
for `max = 0` (the route only ever calls it with `max ≥ 1`, where the fuel
`word.length` never runs out). -/
def hardSplitF : Nat → Nat → List Char → List (List Char)
  | 0, _, _ => []
  | _ + 1, _, [] => []
  | fuel + 1, max, x :: xs => (x :: xs).take max :: hardSplitF fuel max ((x :: xs).drop max)

def hardSplit (max : Nat) (w : List Char) : List (List Char) :=
  hardSplitF w.length max w

/-- One iteration of the word loop inside `splitByLength`; the state is
`(result, current)`. -/
def splitWordStep (max : Nat) (st : List (List Char) × List Char) (word : List Char) :
    List (List Char) × List Char :=
  if max < word.length then
    ((if st.2 ≠ [] then st.1 ++ [trim st.2] else st.1) ++ hardSplit max word, [])
  else if max < st.2.length + word.length + 1 then
    ((if st.2 ≠ [] then st.1 ++ [trim st.2] else st.1), word)
  else
    (st.1, if st.2 = [] then word else st.2 ++ ' ' :: word)

/-- The inner helper `splitByLength(str, max)` of `chunkText`. -/
def splitByLength (str : List Char) (max : Nat) : List (List Char) :=
  let st := (splitWS str).foldl (splitWordStep max) ([], [])
  if trim st.2 ≠ [] then st.1 ++ [trim st.2] else st.1

/-- One iteration of the paragraph loop of `chunkText`; the state is
`(chunks, currentChunk)`. -/
def chunkStep (max : Nat) (st : List (List Char) × List Char) (para : List Char) :
    List (List Char) × List Char :=
  if max < para.length then
    ((if st.2 ≠ [] then st.1 ++ [trim st.2] else st.1) ++ splitByLength para max, [])
  else if max < st.2.length + para.length ∧ st.2 ≠ [] then
    (st.1 ++ [trim st.2], para)
  else
    (st.1, if st.2 = [] then para else st.2 ++ '\n' :: '\n' :: para)

/-- `chunkText(text, maxLength)` from the upload route. -/
def chunkText (text : List Char) (max : Nat) : List (List Char) :=
  let st := (splitBlank text).foldl (chunkStep max) ([], [])
  let chunks := if trim st.2 ≠ [] then st.1 ++ [trim st.2] else st.1
  if chunks ≠ [] then chunks else [(trim text).take max]

/-! ### Text extraction (`extractTextFromFile` in the upload route)

The binary parsers (pdf-parse, JSZip slide scraping, mammoth) are external
libraries; `raw` stands for the text they produce.  What the route itself
does — the whitespace normalization applied to that text for PDF/PPTX/DOCX
and the verbatim `file.text()` passthrough for everything else — is
modelled exactly. -/

def crlfToLf : List Char → List Char
  | [] => []
  | '\r' :: '\n' :: rest => '\n' :: crlfToLf rest
  | c :: rest => c :: crlfToLf rest

/-- Replacement text for a run of `n` consecutive newlines under
`.replace(/\n{3,}/g, '\n\n')`. -/
def cnEmit (n : Nat) : List Char :=
  if 3 ≤ n then ['\n', '\n'] else List.replicate n '\n'

def cnStep (st : List Char × Nat) (c : Char) : List Char × Nat :=
  if c = '\n' then (st.1, st.2 + 1) else (st.1 ++ cnEmit st.2 ++ [c], 0)

/-- `.replace(/\n{3,}/g, '\n\n')`: collapse maximal runs of three or more
newlines to exactly two. -/
def collapseNewlines (s : List Char) : List Char :=
  let st := s.foldl cnStep ([], 0)
  st.1 ++ cnEmit st.2

/-- The cleanup `.replace(/\r\n/g, '\n').replace(/\n{3,}/g, '\n\n').trim()`
applied in the PDF, PPTX and DOCX branches. -/
def normalizeExtracted (raw : List Char) : List Char :=
  trim (collapseNewlines (crlfToLf raw))

inductive FileKind
  | pdf
  | pptx
  | docx
  | plain
deriving DecidableEq

/-- `extractTextFromFile`: PDF, PPTX and DOCX text is normalized and
rejected when empty; any other file is returned verbatim via
`file.text()`. -/
def extractTextFromFile (kind : FileKind) (raw : List Char) : Except String (List Char) :=
  match kind with
  | .pdf =>
      let cleaned := normalizeExtracted raw
      if cleaned = [] then .error "PDF appears to be empty or contains only images"
      else .ok cleaned
  | .pptx =>
      let cleaned := normalizeExtracted raw
      if cleaned = [] then .error "PowerPoint appears to be empty or contains only images"
      else .ok cleaned
  | .docx =>
      let cleaned := normalizeExtracted raw
      if cleaned = [] then .error "Word document appears to be empty"
      else .ok cleaned
  | .plain => .ok raw

/-! ### Vector index (`src/lib/pinecone.ts` + handlers)

`getIndex(ip)` returns a view of the index scoped to the namespace `ip`;
the index itself is a map from namespace to stored records.  The
similarity ranking of `query` is abstracted as store order; the metadata
filter, the `topK` cap and the namespace scoping are modelled. -/

/-- One stored record (`{id, values, metadata:{documentName, chunk, chunkIndex}}`). -/
structure VectorRecord where
  id : String
  values : List Int
  documentName : String
  chunk : List Char
  chunkIndex : Nat
deriving DecidableEq

/-- The whole external index: records per namespace. -/
abbrev PineconeIndex := String → List VectorRecord

/-- `index.namespace(ns).upsert({records})`: records with a colliding id are
replaced, new ones appended. -/
def nsUpsert (idx : PineconeIndex) (ns : String) (recs : List VectorRecord) : PineconeIndex :=
  fun n =>
    if n = ns then (idx n).filter (fun r => ¬ recs.any (fun s => s.id == r.id)) ++ recs
    else idx n

def recMatches (filt : Option String) (r : VectorRecord) : Bool :=
  match filt with
  | none => true
  | some d => r.documentName == d

/-- `index.namespace(ns).query({topK, filter})`: up to `topK` records of the
namespace passing the exact-match `documentName` filter. -/
def nsQuery (idx : PineconeIndex) (ns : String) (filt : Option String) (topK : Nat) :
    List VectorRecord :=
  ((idx ns).filter (recMatches filt)).take topK

/-- `index.namespace(ns).deleteMany(ids)`. -/
def nsDeleteMany (idx : PineconeIndex) (ns : String) (ids : List String) : PineconeIndex :=
  fun n =>
    if n = ns then (idx n).filter (fun r => ¬ ids.contains r.id)
    else idx n

/-! ### Upload / list / delete / ask handlers -/

/-- The record-building inner loop of the upload handler: one record per
chunk, with id `` `${file.name}-${uploadTimestamp}-${i + j}` ``. -/
def buildRecords (fileName : String) (ts : Nat) :
    Nat → List (List Char × List Int) → List VectorRecord
  | _, [] => []
  | i, ce :: rest =>
      ⟨fileName ++ "-" ++ toString ts ++ "-" ++ toString i, ce.2, fileName, ce.1, i⟩ ::
        buildRecords fileName ts (i + 1) rest

/-- `getEmbeddingsBatch`: all texts embedded (`Promise.all`) — the whole
batch fails if any item fails, order is preserved. -/
def getEmbeddingsBatch (embed : List Char → Except String (List Int)) :
    List (List Char) → Except String (List (List Int))
  | [] => .ok []
  | t :: rest =>
      match embed t, getEmbeddingsBatch embed rest with
      | .error e, _ => .error e
      | .ok _, .error e => .error e
      | .ok v, .ok vs => .ok (v :: vs)

/-- The batched embedding loop of the upload handler (`BATCH_SIZE = 5`,
`getEmbeddingsBatch` fails the whole batch if any item fails); fuelled for
structural recursion — the wrapper passes `chunks.length`, which never
runs out since every iteration consumes at least one chunk. -/
def ingestLoopF (embed : List Char → Except String (List Int)) (fileName : String) (ts : Nat) :
    Nat → List (List Char) → Nat → Except String (List VectorRecord)
  | _, [], _ => .ok []
  | 0, _ :: _, _ => .ok []
  | fuel + 1, c :: cs, i =>
      let batch := (c :: cs).take 5
      match getEmbeddingsBatch embed batch with
      | .error e => .error e
      | .ok embs =>
          match ingestLoopF embed fileName ts fuel ((c :: cs).drop 5) (i + 5) with
          | .error e => .error e
          | .ok rest => .ok (buildRecords fileName ts i (batch.zip embs) ++ rest)

def ingestLoop (embed : List Char → Except String (List Int)) (fileName : String) (ts : Nat)
    (chunks : List (List Char)) : Except String (List VectorRecord) :=
  ingestLoopF embed fileName ts chunks.length chunks 0

inductive UploadResult
  | uploadError (msg : String)
  | emptyFile
  | serverError (msg : String)
  | success (documentName : String) (chunksCount : Nat)
deriving DecidableEq

/-- The upload `POST` handler after rate-limit admission: extract, reject
empty text, chunk at 2000, embed batches, then one bulk upsert into the
caller's namespace. -/
def uploadPOST (ip : String) (embed : List Char → Except String (List Int))
    (kind : FileKind) (fileName : String) (raw : List Char) (ts : Nat)
    (idx : PineconeIndex) : UploadResult × PineconeIndex :=
  match extractTextFromFile kind raw with
  | .error e => (.uploadError e, idx)
  | .ok text =>
      if trim text = [] then (.emptyFile, idx)
      else
        let chunks := chunkText text 2000
        match ingestLoop embed fileName ts chunks with
        | .error e => (.serverError e, idx)
        | .ok vectors => (.success fileName chunks.length, nsUpsert idx ip vectors)

/-- The aggregation loop of the list `GET` handler over the sampled query
result: first occurrence of a name registers the document, later ones
increment its chunk count. -/
def aggregateStep (acc : List (String × Nat)) (r : VectorRecord) : List (String × Nat) :=
  if acc.any (fun p => p.1 == r.documentName) then
    acc.map (fun p => if p.1 == r.documentName then (p.1, p.2 + 1) else p)
  else acc ++ [(r.documentName, 1)]

/-- The list `GET` handler after rate-limit admission: sample up to 100
records of the caller's namespace and aggregate by document name. -/
def listGET (ip : String) (idx : PineconeIndex) : List (String × Nat) :=
  (nsQuery idx ip none 100).foldl aggregateStep []

inductive DeleteResult
  | badRequest
  | notFound
  | success (deletedChunks : Nat)
deriving DecidableEq

/-- The delete `DELETE` handler after rate-limit admission: query the
caller's namespace with an exact `documentName` filter (`topK: 1000`),
404 on zero matches, else bulk-delete the collected ids. -/
def deleteDELETE (ip : String) (documentName : String) (idx : PineconeIndex) :
    DeleteResult × PineconeIndex :=
  if documentName = "" then (.badRequest, idx)
  else
    let found := nsQuery idx ip (some documentName) 1000
    if found = [] then (.notFound, idx)
    else
      let idsToDelete := found.map (fun r => r.id)
      (.success idsToDelete.length, nsDeleteMany idx ip idsToDelete)

inductive AskResult
  | questionRequired
  | emptyQuestion
  | tooLong
  | embedFailed (msg : String)
  | noDocs
  | answered (sources : List (String × List Char))
deriving DecidableEq

/-- The ask `POST` handler after rate-limit admission: validate the
question, embed it, query the caller's namespace with `topK: 5`, and
return the matched chunks as sources. -/
def askPOST (ip : String) (question : List Char)
    (embedQ : List Char → Except String (List Int)) (idx : PineconeIndex) : AskResult :=
  if question = [] then .questionRequired
  else
    let q := trim question
    if q = [] then .emptyQuestion
    else if 1000 < q.length then .tooLong
    else
      match embedQ q with
      | .error e => .embedFailed e
      | .ok _ =>
          let found := nsQuery idx ip none 5
          if found = [] then .noDocs
          else .answered (found.map (fun r => (r.documentName, r.chunk)))

/-- A mocked provider that fails transiently twice, then succeeds. -/
def providerOkAfter2 : Nat → ApiResponse := fun n =>
  if n < 2 then ⟨429, [], "quota"⟩ else ⟨200, [7], ""⟩

/-- A mocked provider that always fails transiently. -/
def providerAlwaysDown : Nat → ApiResponse := fun _ => ⟨503, [], "down"⟩

/-- A mocked provider that answers with a permanent (non-retryable) error. -/
def providerAuthFail : Nat → ApiResponse := fun _ => ⟨401, [], "auth"⟩

/-- Record `i` of a 1001-chunk document named `"d"`. -/
def bigRecord (i : Nat) : VectorRecord := ⟨toString i, [], "d", [], i⟩

/-- A namespace holding 1001 records of one document. -/
def bigIdx : PineconeIndex := fun n => if n = "A" then (List.range 1001).map bigRecord else []

/-! ## Helper lemmas -/

theorem foldl_invariant {α β : Type} (f : β → α → β) (P : β → Prop) :
    ∀ (l : List α) (b : β), P b → (∀ b' a, a ∈ l → P b' → P (f b' a)) → P (l.foldl f b)
  | [], _, hb, _ => hb
  | a :: l, b, hb, hstep =>
      foldl_invariant f P l (f b a) (hstep b a (.head _) hb)
        (fun b' a' ha' hb' => hstep b' a' (.tail _ ha') hb')

/-! ## C4: retry policy of `getEmbedding` -/

theorem respOk_false_of_transient {r : ApiResponse} (h : respTransient r = true) :
    respOk r = false := by
  simp only [respOk, respTransient, Bool.or_eq_true, decide_eq_true_eq] at h ⊢
  simp only [Bool.and_eq_false_iff, decide_eq_false_iff_not]
  omega

theorem backoff_cons (attempt k : Nat) :
    INITIAL_BACKOFF_MS * 2 ^ attempt ::
        (List.range k).map (fun i => INITIAL_BACKOFF_MS * 2 ^ (attempt + 1 + i)) =
      (List.range (k + 1)).map (fun i => INITIAL_BACKOFF_MS * 2 ^ (attempt + i)) := by
  rw [List.range_succ_eq_map, List.map_cons, List.map_map]
  simp only [List.cons.injEq]
  refine ⟨by rw [Nat.add_zero], ?_⟩
  refine List.map_congr_left (fun i _ => ?_)
  simp only [Function.comp_apply]
  have h : attempt + 1 + i = attempt + Nat.succ i := by omega
  rw [h]

theorem getEmbeddingLoop_ok (provider : Nat → ApiResponse) :
    ∀ (k attempt remaining : Nat) (le : Option String), k < remaining →
      (∀ i, i < k → respTransient (provider (attempt + i)) = true) →
      respOk (provider (attempt + k)) = true →
      getEmbeddingLoop provider attempt remaining le =
        ⟨.ok (provider (attempt + k)).embedding, k + 1,
          (List.range k).map (fun i => INITIAL_BACKOFF_MS * 2 ^ (attempt + i))⟩ := by
  intro k
  induction k with
  | zero =>
      intro attempt remaining le hlt _ hok
      obtain ⟨m, rfl⟩ : ∃ m, remaining = m + 1 := ⟨remaining - 1, by omega⟩
      simp only [getEmbeddingLoop]
      rw [if_pos (by simpa using hok)]
      simp
  | succ k ih =>
      intro attempt remaining le hlt htr hok
      obtain ⟨m, rfl⟩ : ∃ m, remaining = m + 1 := ⟨remaining - 1, by omega⟩
      have htr0 : respTransient (provider attempt) = true := by
        simpa using htr 0 (Nat.succ_pos k)
      have harg : attempt + 1 + k = attempt + (k + 1) := by omega
      have hrec := ih (attempt + 1) m (some ("NVIDIA API error: " ++ (provider attempt).errorText))
        (by omega)
        (fun i hi => by
          have := htr (i + 1) (by omega)
          simpa [Nat.add_assoc, Nat.add_comm 1 i] using this)
        (by rw [harg]; exact hok)
      simp only [getEmbeddingLoop]
      rw [if_neg (by simp [respOk_false_of_transient htr0]), if_pos htr0, hrec]
      dsimp only
      rw [backoff_cons, harg]

theorem getEmbeddingLoop_exhaust (provider : Nat → ApiResponse) :
    ∀ (remaining attempt : Nat) (le : Option String), 1 ≤ remaining →
      (∀ i, i < remaining → respTransient (provider (attempt + i)) = true) →
      getEmbeddingLoop provider attempt remaining le =
        ⟨.error ("NVIDIA API error: " ++ (provider (attempt + remaining - 1)).errorText),
          remaining,
          (List.range remaining).map (fun i => INITIAL_BACKOFF_MS * 2 ^ (attempt + i))⟩ := by
  intro remaining
  induction remaining with
  | zero => intro _ _ h; omega
  | succ m ih =>
      intro attempt le _ htr
      have htr0 : respTransient (provider attempt) = true := by
        simpa using htr 0 (Nat.succ_pos m)
      simp only [getEmbeddingLoop]
      rw [if_neg (by simp [respOk_false_of_transient htr0]), if_pos htr0]
      rcases Nat.eq_zero_or_pos m with hm | hm
      · subst hm
        have h1 : List.range 1 = [0] := rfl
        simp [getEmbeddingLoop, Option.getD, h1]
      · have hrec := ih (attempt + 1) (some ("NVIDIA API error: " ++ (provider attempt).errorText))
          hm
          (fun i hi => by
            have := htr (i + 1) (by omega)
            simpa [Nat.add_assoc, Nat.add_comm 1 i] using this)
        rw [hrec]
        dsimp only
        rw [backoff_cons]
        have harg : attempt + 1 + m - 1 = attempt + (m + 1) - 1 := by omega
        rw [harg]

theorem getEmbeddingLoop_permanent (provider : Nat → ApiResponse) :
    ∀ (j attempt remaining : Nat) (le : Option String), j < remaining →
      (∀ i, i < j → respTransient (provider (attempt + i)) = true) →
      respOk (provider (attempt + j)) = false →
      respTransient (provider (attempt + j)) = false →
      getEmbeddingLoop provider attempt remaining le =
        ⟨.error ("NVIDIA API error: " ++ (provider (attempt + j)).errorText), j + 1,
          (List.range j).map (fun i => INITIAL_BACKOFF_MS * 2 ^ (attempt + i))⟩ := by
  intro j
  induction j with
  | zero =>
      intro attempt remaining le hlt _ hok htr
      obtain ⟨m, rfl⟩ : ∃ m, remaining = m + 1 := ⟨remaining - 1, by omega⟩
      simp only [getEmbeddingLoop]
      rw [if_neg (by simpa using hok), if_neg (by simpa using htr)]
      simp
  | succ j ih =>
      intro attempt remaining le hlt htr hok hperm
      obtain ⟨m, rfl⟩ : ∃ m, remaining = m + 1 := ⟨remaining - 1, by omega⟩
      have htr0 : respTransient (provider attempt) = true := by
        simpa using htr 0 (Nat.succ_pos j)
      have harg : attempt + 1 + j = attempt + (j + 1) := by omega
      have hrec := ih (attempt + 1) m (some ("NVIDIA API error: " ++ (provider attempt).errorText))
        (by omega)
        (fun i hi => by
          have := htr (i + 1) (by omega)
          simpa [Nat.add_assoc, Nat.add_comm 1 i] using this)
        (by rw [harg]; exact hok) (by rw [harg]; exact hperm)
      simp only [getEmbeddingLoop]
      rw [if_neg (by simp [respOk_false_of_transient htr0]), if_pos htr0, hrec]
      dsimp only
      rw [backoff_cons, harg]

/-- Claim C4: `getEmbedding` retries a transient failure (429 or 5xx) up to
exactly `MAX_RETRIES = 5` attempts with doubling backoff delays
1s/2s/4s/8s/16s: a provider failing transiently exactly `k < 5` times then
succeeding yields the success after exactly `k` delays (1s…2^(k-1)s) and
`k+1` attempts; a provider failing transiently on every attempt makes
exactly 5 attempts, performs the five delays, and surfaces the last
transient error; any non-transient, non-success response fails at once
with no further attempt. -/
theorem getEmbedding_retry_policy (provider : Nat → ApiResponse) :
    (∀ k, k < MAX_RETRIES →
      (∀ i, i < k → respTransient (provider i) = true) →
      respOk (provider k) = true →
      getEmbedding provider =
        ⟨.ok (provider k).embedding, k + 1,
          (List.range k).map (fun i => INITIAL_BACKOFF_MS * 2 ^ i)⟩) ∧
    ((∀ i, i < MAX_RETRIES → respTransient (provider i) = true) →
      getEmbedding provider =
        ⟨.error ("NVIDIA API error: " ++ (provider 4).errorText), 5,
          [1000, 2000, 4000, 8000, 16000]⟩) ∧
    (∀ j, j < MAX_RETRIES →
      (∀ i, i < j → respTransient (provider i) = true) →
      respOk (provider j) = false → respTransient (provider j) = false →
      getEmbedding provider =
        ⟨.error ("NVIDIA API error: " ++ (provider j).errorText), j + 1,
          (List.range j).map (fun i => INITIAL_BACKOFF_MS * 2 ^ i)⟩) := by
  refine ⟨?_, ?_, ?_⟩
  · intro k hk htr hok
    have h := getEmbeddingLoop_ok provider k 0 MAX_RETRIES none hk
      (fun i hi => by simpa using htr i hi) (by simpa using hok)
    rw [getEmbedding, h]
    simp
  · intro htr
    have h := getEmbeddingLoop_exhaust provider MAX_RETRIES 0 none (by decide)
      (fun i hi => by simpa using htr i hi)
    rw [getEmbedding, h]
    refine congrArg₂ _ rfl ?_
    decide
  · intro j hj htr hok hperm
    have h := getEmbeddingLoop_permanent provider j 0 MAX_RETRIES none hj
      (fun i hi => by simpa using htr i hi) (by simpa using hok) (by simpa using hperm)
    rw [getEmbedding, h]
    simp

theorem getEmbedding_retry_policy_witness :
    getEmbedding providerOkAfter2 = ⟨.ok [7], 3, [1000, 2000]⟩ ∧
    getEmbedding providerAlwaysDown =
      ⟨.error ("NVIDIA API error: " ++ "down"), 5, [1000, 2000, 4000, 8000, 16000]⟩ ∧
    getEmbedding providerAuthFail = ⟨.error ("NVIDIA API error: " ++ "auth"), 1, []⟩ := by
  refine ⟨?_, ?_, ?_⟩
  · exact ((getEmbedding_retry_policy providerOkAfter2).1 2 (by decide) (by decide)
      (by decide)).trans (by decide)
  · exact ((getEmbedding_retry_policy providerAlwaysDown).2.1 (by decide)).trans (by decide)
  · exact ((getEmbedding_retry_policy providerAuthFail).2.2 0 (by decide) (by decide)
      (by decide) (by decide)).trans (by decide)

/-! ## C5 / C1: fixed-window rate limiting -/

theorem storeGet_singleton (k : String) (e : RateLimitEntry) :
    storeGet [(k, e)] k = some e := by
  simp [storeGet]

theorem storeSet_singleton (k : String) (e v : RateLimitEntry) :
    storeSet [(k, e)] k v = [(k, v)] := by
  simp [storeSet]

/-- First admission for a key on the empty store: fresh window, count 1. -/
theorem checkRateLimit_fresh (config : RateLimitConfig) (ip : String) (t : Nat) :
    checkRateLimit t [] ip config =
      (⟨true, config.maxRequests - 1, config.windowMs⟩, [(ip, ⟨1, t + config.windowMs⟩)]) := by
  simp [checkRateLimit, storeGet, storeSet]

/-- Admission on a singleton store whose window is still live (`t ≤ R`). -/
theorem checkRateLimit_single_live (config : RateLimitConfig) (ip : String)
    (c R t : Nat) (ht : t ≤ R) :
    checkRateLimit t [(ip, ⟨c, R⟩)] ip config =
      if c < config.maxRequests then
        (⟨true, config.maxRequests - (c + 1), R - t⟩, [(ip, ⟨c + 1, R⟩)])
      else (⟨false, 0, R - t⟩, [(ip, ⟨c, R⟩)]) := by
  rcases Nat.lt_or_ge c config.maxRequests with hc | hc
  · rw [if_pos hc]
    have h1 : ¬ R < t := by omega
    have h2 : ¬ config.maxRequests ≤ c := by omega
    simp [checkRateLimit, storeGet_singleton, storeSet_singleton, h1, h2]
  · rw [if_neg (show ¬ c < config.maxRequests by omega)]
    have h1 : ¬ R < t := by omega
    have h2 : config.maxRequests ≤ c := by omega
    simp [checkRateLimit, storeGet_singleton, h1, h2]

/-- Admission on a singleton store whose window has fully elapsed (`R < t`):
a fresh window starts with count 1. -/
theorem checkRateLimit_single_expired (config : RateLimitConfig) (ip : String)
    (c R t : Nat) (ht : R < t) :
    checkRateLimit t [(ip, ⟨c, R⟩)] ip config =
      (⟨true, config.maxRequests - 1, config.windowMs⟩, [(ip, ⟨1, t + config.windowMs⟩)]) := by
  simp [checkRateLimit, storeGet_singleton, storeSet_singleton, ht]

/-- Trace of admissions within a live window, starting from count `c`. -/
theorem runCalls_live (config : RateLimitConfig) (ip : String) (R : Nat) :
    ∀ (ts : List Nat) (c : Nat), 1 ≤ c → c ≤ config.maxRequests →
      (∀ t ∈ ts, t ≤ R) →
      (runCalls config ip [(ip, ⟨c, R⟩)] ts).2 =
          [(ip, ⟨min (c + ts.length) config.maxRequests, R⟩)] ∧
      ∀ i, (runCalls config ip [(ip, ⟨c, R⟩)] ts).1.get? i =
          (ts.get? i).map (fun t =>
            if c + i < config.maxRequests then
              (⟨true, config.maxRequests - (c + i + 1), R - t⟩ : RateLimitResult)
            else ⟨false, 0, R - t⟩) := by
  intro ts
  induction ts with
  | nil =>
      intro c h1 h2 _
      constructor
      · simp [runCalls]
        omega
      · intro i
        simp [runCalls]
  | cons t ts ih =>
      intro c h1 h2 hin
      have ht : t ≤ R := hin t (List.mem_cons_self _ _)
      have hrest : ∀ x ∈ ts, x ≤ R := fun x hx => hin x (List.mem_cons_of_mem _ hx)
      rcases Nat.lt_or_ge c config.maxRequests with hc | hc
      · have hstep := checkRateLimit_single_live config ip c R t ht
        rw [if_pos hc] at hstep
        have ihc := ih (c + 1) (by omega) (by omega) hrest
        constructor
        · simp only [runCalls, hstep]
          rw [ihc.1]
          have : min (c + 1 + ts.length) config.maxRequests
              = min (c + (t :: ts).length) config.maxRequests := by
            simp only [List.length_cons]
            omega
          rw [this]
        · intro i
          cases i with
          | zero =>
              simp [runCalls, hstep, hc]
          | succ i =>
              simp only [runCalls, hstep, List.get?]
              rw [ihc.2 i]
              refine congrArg (fun h => Option.map h (ts.get? i)) (funext fun t' => ?_)
              have harg : c + 1 + i = c + (i + 1) := by omega
              rw [harg]
      · have hceq : c = config.maxRequests := by omega
        have hstep := checkRateLimit_single_live config ip c R t ht
        rw [if_neg (by omega)] at hstep
        have ihc := ih c h1 h2 hrest
        constructor
        · simp only [runCalls, hstep]
          rw [ihc.1]
          have : min (c + ts.length) config.maxRequests
              = min (c + (t :: ts).length) config.maxRequests := by
            simp only [List.length_cons]
            omega
          rw [this]
        · intro i
          cases i with
          | zero =>
              have hcn : ¬ c < config.maxRequests := by omega
              simp [runCalls, hstep, hcn]
          | succ i =>
              simp only [runCalls, hstep, List.get?]
              rw [ihc.2 i]
              refine congrArg (fun h => Option.map h (ts.get? i)) (funext fun t' => ?_)
              rw [if_neg (by omega), if_neg (by omega)]

/-- Claim C5: with `maxRequests = N ≥ 1` and a fresh key, the first call (at `t0`)
and the following calls at times strictly inside the window `[t0, t0 + W)`
behave as a fixed window: call `i` is allowed exactly when `i < N` (with the
exact remaining/resetIn bookkeeping), every denied call reports
`resetIn > 0` and leaves the stored window untouched (the final entry still
ends at `t0 + W`, its count capped at `N`), and the first call after the
window has fully elapsed starts a fresh window with count 1. -/
theorem checkRateLimit_fixed_window (config : RateLimitConfig) (ip : String)
    (t0 : Nat) (ts : List Nat)
    (hmax : 1 ≤ config.maxRequests)
    (hin : ∀ t ∈ ts, t < t0 + config.windowMs) :
    ((runCalls config ip [] (t0 :: ts)).1.get? 0 =
        some ⟨true, config.maxRequests - 1, config.windowMs⟩) ∧
    (∀ i, (runCalls config ip [] (t0 :: ts)).1.get? (i + 1) =
        (ts.get? i).map (fun t =>
          if i + 1 < config.maxRequests then
            (⟨true, config.maxRequests - (i + 2), t0 + config.windowMs - t⟩ : RateLimitResult)
          else ⟨false, 0, t0 + config.windowMs - t⟩)) ∧
    (∀ i t, (t0 :: ts).get? i = some t → config.maxRequests ≤ i →
        (runCalls config ip [] (t0 :: ts)).1.get? i =
            some ⟨false, 0, t0 + config.windowMs - t⟩ ∧
          0 < t0 + config.windowMs - t) ∧
    ((runCalls config ip [] (t0 :: ts)).2 =
        [(ip, ⟨min (1 + ts.length) config.maxRequests, t0 + config.windowMs⟩)]) ∧
    (∀ t', t0 + config.windowMs < t' →
        checkRateLimit t' (runCalls config ip [] (t0 :: ts)).2 ip config =
          (⟨true, config.maxRequests - 1, config.windowMs⟩,
           [(ip, ⟨1, t' + config.windowMs⟩)])) := by
  have hfresh := checkRateLimit_fresh config ip t0
  have hlive := runCalls_live config ip (t0 + config.windowMs) ts 1 (Nat.le_refl 1) hmax
    (fun t htmem => Nat.le_of_lt (hin t htmem))
  have hunfold : runCalls config ip [] (t0 :: ts) =
      ((⟨true, config.maxRequests - 1, config.windowMs⟩ : RateLimitResult) ::
        (runCalls config ip [(ip, ⟨1, t0 + config.windowMs⟩)] ts).1,
       (runCalls config ip [(ip, ⟨1, t0 + config.windowMs⟩)] ts).2) := by
    simp only [runCalls, hfresh]
  refine ⟨?_, ?_, ?_, ?_, ?_⟩
  · rw [hunfold]; rfl
  · intro i
    rw [hunfold]
    show (runCalls config ip [(ip, ⟨1, t0 + config.windowMs⟩)] ts).1.get? i = _
    rw [hlive.2 i]
    refine congrArg (fun h => Option.map h (ts.get? i)) (funext fun t' => ?_)
    have h2 : 1 + i + 1 = i + 2 := by omega
    have h1 : 1 + i = i + 1 := by omega
    rw [h2, h1]
  · intro i t hget hNi
    cases i with
    | zero => omega
    | succ i =>
        have hts : ts.get? i = some t := hget
        have htmem : t ∈ ts := List.get?_mem hts
        have htlt : t < t0 + config.windowMs := hin t htmem
        constructor
        · rw [hunfold]
          show (runCalls config ip [(ip, ⟨1, t0 + config.windowMs⟩)] ts).1.get? i = _
          rw [hlive.2 i]
          rw [hts]
          simp only [Option.map_some']
          rw [if_neg (by omega)]
        · omega
  · rw [hunfold]
    exact hlive.1
  · intro t' ht'
    rw [hunfold]
    show checkRateLimit t' (runCalls config ip [(ip, ⟨1, t0 + config.windowMs⟩)] ts).2 ip config = _
    rw [hlive.1]
    exact checkRateLimit_single_expired config ip _ _ t' ht'

theorem checkRateLimit_fixed_window_witness :
    (runCalls ⟨10, 2⟩ "ip" [] [0, 1, 2, 3]).1.get? 0 = some ⟨true, 1, 10⟩ ∧
    (runCalls ⟨10, 2⟩ "ip" [] [0, 1, 2, 3]).1.get? 2 = some ⟨false, 0, 8⟩ ∧
    (runCalls ⟨10, 2⟩ "ip" [] [0, 1, 2, 3]).2 = [("ip", ⟨2, 10⟩)] ∧
    checkRateLimit 11 (runCalls ⟨10, 2⟩ "ip" [] [0, 1, 2, 3]).2 "ip" ⟨10, 2⟩ =
      (⟨true, 1, 10⟩, [("ip", ⟨1, 21⟩)]) := by
  have h := checkRateLimit_fixed_window ⟨10, 2⟩ "ip" 0 [1, 2, 3] (by decide)
    (by decide)
  refine ⟨h.1.trans (by decide), ?_, h.2.2.2.1.trans (by decide), ?_⟩
  · exact ((h.2.2.1 2 2 (by decide) (by decide)).1).trans (by decide)
  · exact (h.2.2.2.2 11 (by decide)).trans (by decide)

theorem storeGet_storeSet_self (s : RateLimitStore) (k : String) (v : RateLimitEntry) :
    storeGet (storeSet s k v) k = some v := by
  induction s with
  | nil => simp [storeSet, storeGet]
  | cons a s ih =>
      by_cases ha : (a.1 == k) = true
      · simp [storeSet, storeGet, ha]
      · have hfa : (a.1 == k) = false := by simpa using ha
        simp only [storeSet, storeGet, hfa, Bool.false_eq_true, if_false]
        exact ih

theorem storeSet_length_mem (s : RateLimitStore) (k : String) (v e : RateLimitEntry)
    (h : storeGet s k = some e) : (storeSet s k v).length = s.length := by
  induction s with
  | nil => cases h
  | cons a s ih =>
      by_cases ha : (a.1 == k) = true
      · simp [storeSet, ha]
      · have hfa : (a.1 == k) = false := by simpa using ha
        have htail : storeGet s k = some e := by
          simpa [storeGet, hfa] using h
        simp only [storeSet, hfa, Bool.false_eq_true, if_false, List.length_cons]
        rw [ih htail]

/-- Claim C1 counterexample: ten admissions for identity `"a"` under the ask
policy make the very next upload admission for `"a"` denied, although an
upload admission for a fresh `"a"` would be allowed — the allow/deny
outcome under one policy is changed by calls under another. -/
theorem rateLimit_policy_interference_cex :
    (checkRateLimit 1 [] "a" uploadRateLimit).1.allowed = true ∧
    (checkRateLimit 1 (runCalls askRateLimit "a" [] (List.replicate 10 0)).2 "a"
        uploadRateLimit).1.allowed = false := by
  decide

/-- Claim C1 amended: all policies applied to one identity share a single window
keyed by the identity alone: an admission under policy `c1` inside a live
window increments the one stored count and leaves the window end, and the
allow/deny outcome of the next admission under any policy `c2` is decided
against that shared incremented count. -/
theorem checkRateLimit_shared_window (c1 c2 : RateLimitConfig) (ip : String)
    (store : RateLimitStore) (t1 t2 c R : Nat)
    (hget : storeGet store ip = some ⟨c, R⟩) (hlen : store.length ≤ 10000)
    (h1 : t1 ≤ R) (h2 : t2 ≤ R) (hc : c < c1.maxRequests) :
    storeGet (checkRateLimit t1 store ip c1).2 ip = some ⟨c + 1, R⟩ ∧
    (checkRateLimit t2 (checkRateLimit t1 store ip c1).2 ip c2).1.allowed
      = decide (c + 1 < c2.maxRequests) := by
  have ha : ¬ 10000 < store.length := by omega
  have hb : ¬ R < t1 := by omega
  have hcc : ¬ c1.maxRequests ≤ c := by omega
  have hstep1 : checkRateLimit t1 store ip c1 =
      (⟨true, c1.maxRequests - (c + 1), R - t1⟩, storeSet store ip ⟨c + 1, R⟩) := by
    simp [checkRateLimit, hget, ha, hb, hcc]
  have hget' : storeGet (storeSet store ip ⟨c + 1, R⟩) ip = some ⟨c + 1, R⟩ :=
    storeGet_storeSet_self store ip ⟨c + 1, R⟩
  have hlen' : (storeSet store ip ⟨c + 1, R⟩).length = store.length :=
    storeSet_length_mem store ip ⟨c + 1, R⟩ ⟨c, R⟩ hget
  have ha' : ¬ 10000 < (storeSet store ip ⟨c + 1, R⟩).length := by omega
  have hb' : ¬ R < t2 := by omega
  rw [hstep1]
  refine ⟨hget', ?_⟩
  rcases Nat.lt_or_ge (c + 1) c2.maxRequests with hx | hx
  · have hnd : ¬ c2.maxRequests ≤ c + 1 := by omega
    simp [checkRateLimit, hget', ha', hb', hnd, hx]
  · have hd : c2.maxRequests ≤ c + 1 := by omega
    have hx' : ¬ (c + 1 < c2.maxRequests) := by omega
    simp [checkRateLimit, hget', ha', hb', hd, hx']

theorem checkRateLimit_shared_window_witness :
    storeGet (checkRateLimit 3 [("a", ⟨9, 60000⟩)] "a" askRateLimit).2 "a" =
        some ⟨10, 60000⟩ ∧
    (checkRateLimit 4 (checkRateLimit 3 [("a", ⟨9, 60000⟩)] "a" askRateLimit).2 "a"
        uploadRateLimit).1.allowed = decide (10 < uploadRateLimit.maxRequests) := by
  exact checkRateLimit_shared_window askRateLimit uploadRateLimit "a" [("a", ⟨9, 60000⟩)]
    3 4 9 60000 (by decide) (by decide) (by decide) (by decide) (by decide)

/-! ## C9: whitespace normalization before chunking -/

/-- Claim C9 counterexample: a plain-text upload reaches chunking verbatim —
CRLF is not replaced and a run of four newlines is not collapsed, unlike
the normalized form the claim requires for every file type. -/
theorem extract_plain_not_normalized_cex :
    extractTextFromFile FileKind.plain (['a', '\r', '\n', '\n', '\n', '\n', 'b']) =
      .ok (['a', '\r', '\n', '\n', '\n', '\n', 'b']) ∧
    (['a', '\r', '\n', '\n', '\n', '\n', 'b'] : List Char) ≠
      trim (collapseNewlines (crlfToLf (['a', '\r', '\n', '\n', '\n', '\n', 'b']))) := by
  decide

/-- Claim C9 amended: the whitespace normalization (CRLF → LF, 3+ newlines
collapsed to 2, then trim) is applied before chunking for PDF, PPTX and
DOCX files only; a plain-text file is passed to chunking verbatim. -/
theorem extractTextFromFile_normalization (kind : FileKind) (raw t : List Char) :
    (kind ≠ FileKind.plain → extractTextFromFile kind raw = .ok t →
      t = trim (collapseNewlines (crlfToLf raw))) ∧
    extractTextFromFile FileKind.plain raw = .ok raw := by
  constructor
  · intro hk hok
    have hnorm : ∀ msg : String,
        (if normalizeExtracted raw = [] then (.error msg : Except String (List Char))
          else .ok (normalizeExtracted raw)) = .ok t →
        t = trim (collapseNewlines (crlfToLf raw)) := by
      intro msg h
      by_cases hz : normalizeExtracted raw = []
      · rw [if_pos hz] at h; cases h
      · rw [if_neg hz] at h
        cases h
        rfl
    cases kind with
    | plain => exact absurd rfl hk
    | pdf => exact hnorm _ hok
    | pptx => exact hnorm _ hok
    | docx => exact hnorm _ hok
  · rfl

theorem extractTextFromFile_normalization_witness :
    (['a'] : List Char) = trim (collapseNewlines (crlfToLf (['a', '\r', '\n']))) ∧
    extractTextFromFile FileKind.plain (['x']) = .ok (['x']) := by
  refine ⟨(extractTextFromFile_normalization FileKind.pdf (['a', '\r', '\n'])
    (['a'])).1 (by decide) (by decide),
    (extractTextFromFile_normalization FileKind.plain (['x']) (['x'])).2⟩

/-! ## C3: atomic ingest -/

theorem getEmbeddingsBatch_error (embed : List Char → Except String (List Int)) :
    ∀ (l : List (List Char)) (c : List Char) (e : String), c ∈ l → embed c = .error e →
      ∃ e', getEmbeddingsBatch embed l = .error e' := by
  intro l
  induction l with
  | nil => intro c e hc _; cases hc
  | cons t rest ih =>
      intro c e hc hce
      rcases List.mem_cons.mp hc with rfl | hmem
      · exact ⟨e, by simp [getEmbeddingsBatch, hce]⟩
      · obtain ⟨e', he'⟩ := ih c e hmem hce
        cases hembed : embed t with
        | error e2 => exact ⟨e2, by simp [getEmbeddingsBatch, hembed]⟩
        | ok v => exact ⟨e', by simp [getEmbeddingsBatch, hembed, he']⟩

theorem ingestLoopF_error (embed : List Char → Except String (List Int))
    (fileName : String) (ts : Nat) :
    ∀ (fuel : Nat) (chunks : List (List Char)) (i : Nat), chunks.length ≤ fuel →
      (∃ c ∈ chunks, ∃ e, embed c = .error e) →
      ∃ e', ingestLoopF embed fileName ts fuel chunks i = .error e' := by
  intro fuel
  induction fuel with
  | zero =>
      intro chunks i hlen hex
      obtain ⟨c, hc, _, _⟩ := hex
      cases chunks with
      | nil => cases hc
      | cons c0 cs => simp at hlen
  | succ fuel ih =>
      intro chunks i hlen hex
      obtain ⟨c, hc, e, hce⟩ := hex
      cases chunks with
      | nil => cases hc
      | cons c0 cs =>
          have hsplit := List.take_append_drop 5 (c0 :: cs)
          rcases List.mem_append.mp (by rw [hsplit]; exact hc) with htake | hdrop
          · obtain ⟨e', he'⟩ := getEmbeddingsBatch_error embed _ c e htake hce
            exact ⟨e', by simp only [ingestLoopF, he']⟩
          · have hlen' : ((c0 :: cs).drop 5).length ≤ fuel := by
              simp only [List.length_drop, List.length_cons]
              simp only [List.length_cons] at hlen
              omega
            obtain ⟨e', he'⟩ := ih ((c0 :: cs).drop 5) (i + 5) hlen' ⟨c, hdrop, e, hce⟩
            cases hbatch : getEmbeddingsBatch embed ((c0 :: cs).take 5) with
            | error e2 => exact ⟨e2, by simp only [ingestLoopF, hbatch]⟩
            | ok embs => exact ⟨e', by simp only [ingestLoopF, hbatch, he']⟩

/-- Claim C3: ingest is atomic with respect to embedding failure: if the (pure)
embedder fails on any chunk of the uploaded text, the upload handler
returns a server error and writes nothing to the index — and conversely
the index changes only when the whole embedding loop succeeded, in which
case the one bulk upsert of all the records happens. -/
theorem uploadPOST_atomic (ip : String) (embed : List Char → Except String (List Int))
    (kind : FileKind) (fileName : String) (raw : List Char) (ts : Nat)
    (idx : PineconeIndex) (text : List Char)
    (hext : extractTextFromFile kind raw = .ok text) (htext : trim text ≠ []) :
    ((∃ c ∈ chunkText text 2000, ∃ e, embed c = .error e) →
      (uploadPOST ip embed kind fileName raw ts idx).2 = idx ∧
      ∃ msg, (uploadPOST ip embed kind fileName raw ts idx).1 = .serverError msg) ∧
    (∀ idx2, (uploadPOST ip embed kind fileName raw ts idx).2 = idx2 → idx2 ≠ idx →
      ∃ vectors, ingestLoop embed fileName ts (chunkText text 2000) = .ok vectors ∧
        idx2 = nsUpsert idx ip vectors ∧
        (uploadPOST ip embed kind fileName raw ts idx).1 =
          .success fileName (chunkText text 2000).length) := by
  constructor
  · intro hfail
    obtain ⟨e', he'⟩ := ingestLoopF_error embed fileName ts (chunkText text 2000).length
      (chunkText text 2000) 0 (Nat.le_refl _) hfail
    have hrun : uploadPOST ip embed kind fileName raw ts idx = (.serverError e', idx) := by
      simp [uploadPOST, hext, htext, ingestLoop, he']
    rw [hrun]
    exact ⟨rfl, e', rfl⟩
  · intro idx2 hidx2 hne
    cases hloop : ingestLoop embed fileName ts (chunkText text 2000) with
    | error e =>
        have hrun : uploadPOST ip embed kind fileName raw ts idx = (.serverError e, idx) := by
          simp [uploadPOST, hext, htext, hloop]
        rw [hrun] at hidx2
        exact absurd hidx2.symm hne
    | ok vectors =>
        have hrun : uploadPOST ip embed kind fileName raw ts idx =
            (.success fileName (chunkText text 2000).length, nsUpsert idx ip vectors) := by
          simp [uploadPOST, hext, htext, hloop]
        refine ⟨vectors, rfl, ?_, ?_⟩
        · rw [hrun] at hidx2; exact hidx2.symm
        · rw [hrun]

theorem uploadPOST_atomic_witness :
    (uploadPOST "A" (fun _ => .error "boom") FileKind.plain "doc" (['a']) 0
        (fun _ => [])).2 = (fun _ => ([] : List VectorRecord)) ∧
    ∃ msg, (uploadPOST "A" (fun _ => .error "boom") FileKind.plain "doc" (['a']) 0
        (fun _ => [])).1 = .serverError msg := by
  exact (uploadPOST_atomic "A" (fun _ => .error "boom") FileKind.plain "doc" (['a']) 0
    (fun _ => []) (['a']) (by decide) (by decide)).1
    ⟨['a'], by decide, "boom", rfl⟩

/-! ## C6: document deletion -/

/-- Claim C6 counterexample: with 1001 records matching the document, the delete
handler's query is capped at `topK: 1000`, so it reports 1000 deleted
chunks, not the 1001 the claim requires. -/
theorem delete_reports_capped_count_cex :
    (deleteDELETE "A" "d" bigIdx).1 = DeleteResult.success 1000 ∧
    ((bigIdx "A").filter (fun r => r.documentName == "d")).length = 1001 ∧
    (1000 : Nat) ≠ 1001 := by
  have hA : bigIdx "A" = (List.range 1001).map bigRecord := by simp [bigIdx]
  have hfil : ((List.range 1001).map bigRecord).filter (fun r => r.documentName == "d") =
      (List.range 1001).map bigRecord :=
    List.filter_eq_self.mpr (by
      intro r hr
      obtain ⟨i, _, rfl⟩ := List.mem_map.mp hr
      rfl)
  have hrm : recMatches (some "d") = fun r => r.documentName == "d" := rfl
  have hfound : nsQuery bigIdx "A" (some "d") 1000 =
      ((List.range 1001).map bigRecord).take 1000 := by
    simp only [nsQuery, hA, hrm, hfil]
  have hfoundlen : (nsQuery bigIdx "A" (some "d") 1000).length = 1000 := by
    rw [hfound]
    simp
  have hfoundne : nsQuery bigIdx "A" (some "d") 1000 ≠ [] := by
    intro h
    rw [h] at hfoundlen
    simp at hfoundlen
  refine ⟨?_, ?_, by decide⟩
  · simp only [deleteDELETE]
    rw [if_neg (show ¬ ("d" : String) = "" by decide), if_neg hfoundne]
    simp only [List.length_map, hfoundlen]
  · rw [hA, hfil]
    simp

/-- Claim C6 amended: deleting `d` in namespace `ns` (ids assumed unique in the
namespace, as pinecone record ids are): with zero matching records the
handler returns NotFound and removes nothing; with `N` matching records it
collects the first `min 1000 N` matching ids (the query's `topK: 1000`
cap), reports exactly that many deleted chunks, leaves every record of
every other document and every other namespace unchanged, and — whenever
`N ≤ 1000` — removes exactly the `N` matching records. -/
theorem deleteDELETE_spec (idx : PineconeIndex) (ns d : String) (hd : d ≠ "")
    (hnodup : ((idx ns).map VectorRecord.id).Nodup) :
    ((idx ns).filter (fun r => r.documentName == d) = [] →
      (deleteDELETE ns d idx).1 = .notFound ∧ (deleteDELETE ns d idx).2 = idx) ∧
    ((idx ns).filter (fun r => r.documentName == d) ≠ [] →
      (deleteDELETE ns d idx).1 =
        .success (min 1000 ((idx ns).filter (fun r => r.documentName == d)).length) ∧
      (∀ ns', ns' ≠ ns → (deleteDELETE ns d idx).2 ns' = idx ns') ∧
      (∀ r ∈ idx ns, r.documentName ≠ d → r ∈ (deleteDELETE ns d idx).2 ns) ∧
      (((idx ns).filter (fun r => r.documentName == d)).length ≤ 1000 →
        (deleteDELETE ns d idx).2 ns =
          (idx ns).filter (fun r => ¬ r.documentName == d))) := by
  have hrm : recMatches (some d) = fun r => r.documentName == d := rfl
  have hfound : nsQuery idx ns (some d) 1000 =
      ((idx ns).filter (fun r => r.documentName == d)).take 1000 := by
    simp only [nsQuery, hrm]
  constructor
  · intro hnil
    have hfnil : nsQuery idx ns (some d) 1000 = [] := by rw [hfound, hnil]; rfl
    constructor
    · simp only [deleteDELETE]
      rw [if_neg hd, if_pos hfnil]
    · simp only [deleteDELETE]
      rw [if_neg hd, if_pos hfnil]
  · intro hne
    have hfne : nsQuery idx ns (some d) 1000 ≠ [] := by
      rw [hfound]
      intro h
      rcases List.take_eq_nil_iff.mp h with h1 | h1
      · exact absurd h1 (by decide)
      · exact hne h1
    have hrun : deleteDELETE ns d idx =
        (.success ((nsQuery idx ns (some d) 1000).map (fun r => r.id)).length,
         nsDeleteMany idx ns ((nsQuery idx ns (some d) 1000).map (fun r => r.id))) := by
      simp only [deleteDELETE]
      rw [if_neg hd, if_neg hfne]
    have hmemid : ∀ r ∈ idx ns, r.documentName ≠ d →
        ¬ ((nsQuery idx ns (some d) 1000).map (fun r => r.id)).contains r.id = true := by
      intro r hr hrd hcon
      have : r.id ∈ (nsQuery idx ns (some d) 1000).map (fun s => s.id) := by
        simpa [List.elem_eq_mem] using hcon
      obtain ⟨m, hm, hmid⟩ := List.mem_map.mp this
      have hmF : m ∈ (idx ns).filter (fun r => r.documentName == d) := by
        rw [hfound] at hm
        exact List.mem_of_mem_take hm
      have hmmem : m ∈ idx ns := (List.mem_filter.mp hmF).1
      have hmd : (m.documentName == d) = true := (List.mem_filter.mp hmF).2
      have hmr : m = r := List.inj_on_of_nodup_map hnodup hmmem hr hmid
      rw [hmr] at hmd
      exact hrd (by simpa using hmd)
    refine ⟨?_, ?_, ?_, ?_⟩
    · rw [hrun]
      simp only [List.length_map, hfound, List.length_take]
    · intro ns' hns'
      rw [hrun]
      simp [nsDeleteMany, hns']
    · intro r hr hrd
      rw [hrun]
      simp only [nsDeleteMany, if_pos rfl]
      exact List.mem_filter.mpr ⟨hr, by simpa using hmemid r hr hrd⟩
    · intro hle
      have htake : ((idx ns).filter (fun r => r.documentName == d)).take 1000 =
          (idx ns).filter (fun r => r.documentName == d) :=
        List.take_of_length_le hle
      rw [hrun]
      simp only [nsDeleteMany, if_pos rfl]
      refine List.filter_congr ?_
      intro r hr
      refine decide_eq_decide.mpr ?_
      constructor
      · intro hnc hmatch
        refine hnc ?_
        have : r.id ∈ (nsQuery idx ns (some d) 1000).map (fun s => s.id) := by
          rw [hfound, htake]
          exact List.mem_map_of_mem _ (List.mem_filter.mpr ⟨hr, hmatch⟩)
        simpa [List.elem_eq_mem] using this
      · intro hnm hcon
        have : r.id ∈ (nsQuery idx ns (some d) 1000).map (fun s => s.id) := by
          simpa [List.elem_eq_mem] using hcon
        obtain ⟨m, hm, hmid⟩ := List.mem_map.mp this
        have hmF : m ∈ (idx ns).filter (fun s => s.documentName == d) := by
          rw [hfound] at hm
          exact List.mem_of_mem_take hm
        have hmr : m = r :=
          List.inj_on_of_nodup_map hnodup (List.mem_filter.mp hmF).1 hr hmid
        exact hnm (by rw [← hmr]; exact (List.mem_filter.mp hmF).2)

theorem deleteDELETE_spec_witness :
    (deleteDELETE "A" "x" (fun n => if n = "A" then [⟨"i0", [], "y", [], 0⟩] else [])).1 =
        DeleteResult.notFound ∧
    (deleteDELETE "A" "y" (fun n => if n = "A" then [⟨"i0", [], "y", [], 0⟩] else [])).1 =
        DeleteResult.success 1 := by
  constructor
  · exact ((deleteDELETE_spec (fun n => if n = "A" then [⟨"i0", [], "y", [], 0⟩] else [])
      "A" "x" (by decide) (by decide)).1 (by decide)).1
  · exact (((deleteDELETE_spec (fun n => if n = "A" then [⟨"i0", [], "y", [], 0⟩] else [])
      "A" "y" (by decide) (by decide)).2 (by decide)).1).trans (by decide)

/-! ## C7: namespace isolation -/

theorem aggregate_names_sub :
    ∀ (recs : List VectorRecord) (acc : List (String × Nat)) (p : String × Nat),
      p ∈ recs.foldl aggregateStep acc →
      p.1 ∈ acc.map Prod.fst ∨ ∃ r ∈ recs, r.documentName = p.1 := by
  intro recs
  induction recs with
  | nil =>
      intro acc p hp
      exact .inl (List.mem_map_of_mem Prod.fst hp)
  | cons r recs ih =>
      intro acc p hp
      rcases ih (aggregateStep acc r) p hp with hacc | ⟨r', hr', hname⟩
      · by_cases hx : acc.any (fun q => q.1 == r.documentName) = true
        · have hnames : (aggregateStep acc r).map Prod.fst = acc.map Prod.fst := by
            simp only [aggregateStep, if_pos hx, List.map_map]
            refine List.map_congr_left (fun q _ => ?_)
            simp only [Function.comp_apply]
            split <;> rfl
          rw [hnames] at hacc
          exact .inl hacc
        · have hnames : (aggregateStep acc r).map Prod.fst =
              acc.map Prod.fst ++ [r.documentName] := by
            simp [aggregateStep, hx]
          rw [hnames] at hacc
          rcases List.mem_append.mp hacc with h1 | h2
          · exact .inl h1
          · exact .inr ⟨r, List.mem_cons_self _ _, (List.mem_singleton.mp h2).symm⟩
      · exact .inr ⟨r', List.mem_cons_of_mem _ hr', hname⟩

theorem nsQuery_sub (idx : PineconeIndex) (ns : String) (filt : Option String)
    (topK : Nat) (r : VectorRecord) (hr : r ∈ nsQuery idx ns filt topK) : r ∈ idx ns :=
  (List.mem_filter.mp (List.mem_of_mem_take hr)).1

/-- Claim C7: every index access of the handlers is scoped to the caller's own
namespace: upload and delete leave every other namespace byte-for-byte
unchanged, every document name reported by list and every source returned
by ask comes from a record of the caller's own namespace, and a document
that has no record in the caller's namespace cannot be listed there and
its deletion removes nothing anywhere. -/
theorem namespace_isolation (ip ns' : String) (idx : PineconeIndex)
    (embed : List Char → Except String (List Int)) (kind : FileKind)
    (fileName documentName : String) (raw question : List Char) (ts : Nat) :
    (ns' ≠ ip → (uploadPOST ip embed kind fileName raw ts idx).2 ns' = idx ns') ∧
    (ns' ≠ ip → (deleteDELETE ip documentName idx).2 ns' = idx ns') ∧
    (∀ p ∈ listGET ip idx, p.1 ∈ (idx ip).map VectorRecord.documentName) ∧
    (∀ res, askPOST ip question embed idx = .answered res →
      ∀ s ∈ res, s.1 ∈ (idx ip).map VectorRecord.documentName) ∧
    ((∀ r ∈ idx ip, r.documentName ≠ documentName) →
      (deleteDELETE ip documentName idx).2 = idx ∧
      ∀ p ∈ listGET ip idx, p.1 ≠ documentName) := by
  have hlist : ∀ p ∈ listGET ip idx, ∃ r ∈ idx ip, r.documentName = p.1 := by
    intro p hp
    rcases aggregate_names_sub (nsQuery idx ip none 100) [] p hp with habs | ⟨r, hr, hname⟩
    · simp at habs
    · exact ⟨r, nsQuery_sub idx ip none 100 r hr, hname⟩
  refine ⟨?_, ?_, ?_, ?_, ?_⟩
  · intro hns
    cases hext : extractTextFromFile kind raw with
    | error e => simp [uploadPOST, hext]
    | ok text =>
        by_cases htrim : trim text = []
        · simp [uploadPOST, hext, htrim]
        · cases hloop : ingestLoop embed fileName ts (chunkText text 2000) with
          | error e => simp [uploadPOST, hext, htrim, hloop]
          | ok vectors => simp [uploadPOST, hext, htrim, hloop, nsUpsert, hns]
  · intro hns
    by_cases hd : documentName = ""
    · simp [deleteDELETE, hd]
    · by_cases hq : nsQuery idx ip (some documentName) 1000 = []
      · simp [deleteDELETE, hd, hq]
      · simp [deleteDELETE, hd, hq, nsDeleteMany, hns]
  · intro p hp
    obtain ⟨r, hr, hname⟩ := hlist p hp
    exact hname ▸ List.mem_map_of_mem VectorRecord.documentName hr
  · intro res hres s hs
    by_cases h1 : question = []
    · simp [askPOST, h1] at hres
    · by_cases h2 : trim question = []
      · simp [askPOST, h1, h2] at hres
      · by_cases h3 : 1000 < (trim question).length
        · simp [askPOST, h1, h2, h3] at hres
        · cases hq : embed (trim question) with
          | error e => simp [askPOST, h1, h2, h3, hq] at hres
          | ok v =>
              by_cases h4 : nsQuery idx ip none 5 = []
              · simp [askPOST, h1, h2, h3, hq, h4] at hres
              · simp only [askPOST, if_neg h1, if_neg h2, if_neg h3, hq, if_neg h4,
                  AskResult.answered.injEq] at hres
                rw [← hres] at hs
                obtain ⟨r, hr, hsr⟩ := List.mem_map.mp hs
                rw [← hsr]
                exact List.mem_map_of_mem VectorRecord.documentName
                  (nsQuery_sub idx ip none 5 r hr)
  · intro hnone
    have hfil : (idx ip).filter (fun r => r.documentName == documentName) = [] := by
      rw [List.filter_eq_nil_iff]
      intro r hr
      simpa using hnone r hr
    have hq : nsQuery idx ip (some documentName) 1000 = [] := by
      have hrm : recMatches (some documentName) =
          fun r => r.documentName == documentName := rfl
      simp only [nsQuery, hrm, hfil, List.take_nil]
    constructor
    · by_cases hd : documentName = ""
      · simp [deleteDELETE, hd]
      · simp [deleteDELETE, hd, hq]
    · intro p hp
      obtain ⟨r, hr, hname⟩ := hlist p hp
      rw [← hname]
      exact hnone r hr

theorem namespace_isolation_witness :
    (uploadPOST "A" (fun _ => .ok [1]) FileKind.plain "doc" (['a']) 0
        (fun n => if n = "B" then [⟨"b0", [], "docB", [], 0⟩] else [])).2 "B" =
      [⟨"b0", [], "docB", [], 0⟩] ∧
    (deleteDELETE "A" "docB"
        (fun n => if n = "B" then [⟨"b0", [], "docB", [], 0⟩] else [])).2 "B" =
      [⟨"b0", [], "docB", [], 0⟩] ∧
    (∀ p ∈ listGET "A" (fun n => if n = "B" then [⟨"b0", [], "docB", [], 0⟩] else []),
      p.1 ≠ "docB") := by
  have h1 := namespace_isolation "A" "B"
    (fun n => if n = "B" then [⟨"b0", [], "docB", [], 0⟩] else [])
    (fun _ => .ok [1]) FileKind.plain "doc" "docB" (['a']) (['q']) 0
  refine ⟨(h1.1 (by decide)).trans (by decide), ?_, ?_⟩
  · exact ((h1.2.1) (by decide)).trans (by decide)
  · intro p hp
    exact (h1.2.2.2.2 (by decide)).2 p hp

/-! ## Chunker lemmas (for C2, C8, C10) -/

theorem length_trim_le (l : List Char) : (trim l).length ≤ l.length := by
  have h1 := (List.dropWhile_sublist (l := (l.dropWhile isWS).reverse) isWS).length_le
  have h2 := (List.dropWhile_sublist (l := l) isWS).length_le
  simp only [List.length_reverse] at h1
  simp only [trim, List.length_reverse]
  omega

theorem trim_eq_nil_iff (l : List Char) : trim l = [] ↔ ∀ c ∈ l, isWS c = true := by
  simp only [trim, List.reverse_eq_nil_iff, List.dropWhile_eq_nil_iff, List.mem_reverse]
  constructor
  · intro h c hc
    rw [← List.takeWhile_append_dropWhile isWS l] at hc
    rcases List.mem_append.mp hc with h1 | h2
    · exact List.mem_takeWhile_imp h1
    · exact h c h2
  · intro h x hx
    exact h x ((List.dropWhile_sublist isWS).mem hx)

theorem trim_ne_nil_iff (l : List Char) :
    trim l ≠ [] ↔ l.any (fun c => ! isWS c) = true := by
  rw [Ne, trim_eq_nil_iff]
  simp only [List.any_eq_true, Bool.not_eq_true']
  push_neg
  constructor
  · intro h
    obtain ⟨c, hc⟩ := h
    exact ⟨c, hc.1, by simpa using hc.2⟩
  · intro ⟨c, hc, hcf⟩
    exact ⟨c, hc, by simp [hcf]⟩

theorem mem_of_mem_trim {c : Char} {l : List Char} (h : c ∈ trim l) : c ∈ l := by
  simp only [trim, List.mem_reverse] at h
  have h1 : c ∈ (l.dropWhile isWS).reverse := (List.dropWhile_sublist isWS).mem h
  rw [List.mem_reverse] at h1
  exact (List.dropWhile_sublist isWS).mem h1

theorem dropWhile_dropWhile (l : List Char) :
    (l.dropWhile isWS).dropWhile isWS = l.dropWhile isWS := by
  induction l with
  | nil => rfl
  | cons c l ih =>
      by_cases h : isWS c = true
      · rw [List.dropWhile_cons, if_pos h, ih]
      · rw [List.dropWhile_cons, if_neg h, List.dropWhile_cons, if_neg h]

theorem dropWhile_head_false :
    ∀ (l : List Char) (x : Char) (r : List Char),
      l.dropWhile isWS = x :: r → isWS x = false := by
  intro l
  induction l with
  | nil => intro x r h; cases h
  | cons c l ih =>
      intro x r h
      by_cases hc : isWS c = true
      · rw [List.dropWhile_cons, if_pos hc] at h
        exact ih x r h
      · rw [List.dropWhile_cons, if_neg hc] at h
        cases h
        simpa using hc

theorem trim_idem (l : List Char) : trim (trim l) = trim l := by
  have hBB := dropWhile_dropWhile ((l.dropWhile isWS).reverse)
  have hfront : (trim l).dropWhile isWS = trim l := by
    cases hBr : trim l with
    | nil => rfl
    | cons y ys =>
        have hpref : trim l <+: l.dropWhile isWS := by
          have hsuff := List.dropWhile_suffix (l := (l.dropWhile isWS).reverse) isWS
          exact List.reverse_suffix.mp (by simpa [trim] using hsuff)
        obtain ⟨t, ht⟩ := hpref
        rw [hBr, List.cons_append] at ht
        have hy : isWS y = false := dropWhile_head_false l y (ys ++ t) ht.symm
        rw [List.dropWhile_cons, if_neg (by simp [hy])]
  show (((trim l).dropWhile isWS).reverse.dropWhile isWS).reverse = trim l
  rw [hfront]
  have hrev : (trim l).reverse = (l.dropWhile isWS).reverse.dropWhile isWS := by
    simp [trim]
  rw [hrev, hBB]
  rfl

theorem trim_eq_self_of_no_ws (l : List Char) (h : ∀ c ∈ l, isWS c = false) :
    trim l = l := by
  have h1 : l.dropWhile isWS = l := by
    cases l with
    | nil => rfl
    | cons c cs =>
        rw [List.dropWhile_cons, if_neg (by simp [h c (List.mem_cons_self c cs)])]
  have h2 : l.reverse.dropWhile isWS = l.reverse := by
    cases hr : l.reverse with
    | nil => rfl
    | cons c cs =>
        have hc : c ∈ l := by
          rw [← List.mem_reverse, hr]
          exact List.mem_cons_self _ _
        rw [List.dropWhile_cons, if_neg (by simp [h c hc])]
  rw [trim, h1, h2, List.reverse_reverse]

theorem splitWS_no_ws (s : List Char) :
    ∀ w ∈ splitWS s, ∀ c ∈ w, isWS c = false := by
  have hinv := foldl_invariant swStep
    (fun st => (∀ w ∈ st.1, ∀ c ∈ w, isWS c = false) ∧ (∀ c ∈ st.2.1, isWS c = false))
    s ([], [], false)
    ⟨fun w hw => absurd hw (List.not_mem_nil w), fun c hc => absurd hc (List.not_mem_nil c)⟩
    (fun st ch _ hP => by
      unfold swStep
      by_cases h : isWS ch = true
      · rw [if_pos h]
        exact ⟨hP.1, hP.2⟩
      · rw [if_neg h]
        by_cases hf : st.2.2 = true
        · rw [if_pos hf]
          refine ⟨?_, ?_⟩
          · intro w hw
            rcases List.mem_append.mp hw with h1 | h2
            · exact hP.1 w h1
            · rw [List.mem_singleton.mp h2]
              exact hP.2
          · intro c hc
            rw [List.mem_singleton.mp hc]
            simpa using h
        · rw [if_neg hf]
          refine ⟨hP.1, ?_⟩
          intro c hc
          rcases List.mem_append.mp hc with h1 | h2
          · exact hP.2 c h1
          · rw [List.mem_singleton.mp h2]
            simpa using h)
  intro w hw c hc
  unfold splitWS swFinish at hw
  split at hw
  · rcases List.mem_append.mp hw with h1 | h2
    · exact hinv.1 w h1 c hc
    · rcases List.mem_cons.mp h2 with rfl | h3
      · exact hinv.2 c hc
      · rw [List.mem_singleton.mp h3] at hc
        cases hc
  · rcases List.mem_append.mp hw with h1 | h2
    · exact hinv.1 w h1 c hc
    · rw [List.mem_singleton.mp h2] at hc
      exact hinv.2 c hc

theorem mem_swFinish_left (st : List (List Char) × List Char × Bool) (w : List Char)
    (hw : w ∈ st.1) : w ∈ swFinish st := by
  unfold swFinish
  split <;> exact List.mem_append_left _ hw

theorem mem_swFinish_cur (st : List (List Char) × List Char × Bool) :
    st.2.1 ∈ swFinish st := by
  unfold swFinish
  split
  · exact List.mem_append_right _ (List.mem_cons_self _ _)
  · exact List.mem_append_right _ (List.mem_singleton.mpr rfl)

theorem splitWS_covers :
    ∀ (s : List Char) (st : List (List Char) × List Char × Bool) (c : Char),
      isWS c = false →
      ((∃ w ∈ st.1, c ∈ w) ∨ c ∈ st.2.1 ∨ c ∈ s) →
      ∃ w ∈ swFinish (s.foldl swStep st), c ∈ w := by
  intro s
  induction s with
  | nil =>
      intro st c _ hin
      rcases hin with ⟨w, hw, hcw⟩ | hcur | habs
      · exact ⟨w, mem_swFinish_left st w hw, hcw⟩
      · exact ⟨st.2.1, mem_swFinish_cur st, hcur⟩
      · cases habs
  | cons x s ih =>
      intro st c hc hin
      show ∃ w ∈ swFinish (s.foldl swStep (swStep st x)), c ∈ w
      apply ih (swStep st x) c hc
      unfold swStep
      by_cases hx : isWS x = true
      · rw [if_pos hx]
        rcases hin with h1 | h2 | h3
        · exact .inl h1
        · exact .inr (.inl h2)
        · rcases List.mem_cons.mp h3 with rfl | h4
          · rw [hx] at hc; cases hc
          · exact .inr (.inr h4)
      · rw [if_neg hx]
        by_cases hf : st.2.2 = true
        · rw [if_pos hf]
          rcases hin with ⟨w, hw, hcw⟩ | h2 | h3
          · exact .inl ⟨w, List.mem_append_left _ hw, hcw⟩
          · exact .inl ⟨st.2.1, List.mem_append_right _ (List.mem_singleton.mpr rfl), h2⟩
          · rcases List.mem_cons.mp h3 with rfl | h4
            · exact .inr (.inl (List.mem_singleton.mpr rfl))
            · exact .inr (.inr h4)
        · rw [if_neg hf]
          rcases hin with h1 | h2 | h3
          · exact .inl h1
          · exact .inr (.inl (List.mem_append_left _ h2))
          · rcases List.mem_cons.mp h3 with rfl | h4
            · exact .inr (.inl (List.mem_append_right _ (List.mem_singleton.mpr rfl)))
            · exact .inr (.inr h4)

theorem splitWS_cover (s : List Char) (c : Char) (hcs : c ∈ s) (hc : isWS c = false) :
    ∃ w ∈ splitWS s, c ∈ w :=
  splitWS_covers s ([], [], false) c hc (.inr (.inr hcs))

theorem mem_sbFinish_left (st : List (List Char) × List Char × Nat) (w : List Char)
    (hw : w ∈ st.1) : w ∈ sbFinish st := by
  unfold sbFinish
  split <;> exact List.mem_append_left _ hw

theorem sbFinish_cur (st : List (List Char) × List Char × Nat) (c : Char)
    (hc : c ∈ st.2.1) : ∃ w ∈ sbFinish st, c ∈ w := by
  unfold sbFinish
  split
  · exact ⟨st.2.1, List.mem_append_right _ (List.mem_cons_self _ _), hc⟩
  · exact ⟨st.2.1 ++ List.replicate st.2.2 '\n',
      List.mem_append_right _ (List.mem_singleton.mpr rfl), List.mem_append_left _ hc⟩

theorem splitBlank_covers :
    ∀ (s : List Char) (st : List (List Char) × List Char × Nat) (c : Char),
      isWS c = false →
      ((∃ w ∈ st.1, c ∈ w) ∨ c ∈ st.2.1 ∨ c ∈ s) →
      ∃ w ∈ sbFinish (s.foldl sbStep st), c ∈ w := by
  intro s
  induction s with
  | nil =>
      intro st c _ hin
      rcases hin with ⟨w, hw, hcw⟩ | hcur | habs
      · exact ⟨w, mem_sbFinish_left st w hw, hcw⟩
      · exact sbFinish_cur st c hcur
      · cases habs
  | cons x s ih =>
      intro st c hc hin
      show ∃ w ∈ sbFinish (s.foldl sbStep (sbStep st x)), c ∈ w
      apply ih (sbStep st x) c hc
      unfold sbStep
      by_cases hx : x = '\n'
      · rw [if_pos hx]
        rcases hin with h1 | h2 | h3
        · exact .inl h1
        · exact .inr (.inl h2)
        · rcases List.mem_cons.mp h3 with rfl | h4
          · rw [hx] at hc; cases hc
          · exact .inr (.inr h4)
      · rw [if_neg hx]
        by_cases hp : 2 ≤ st.2.2
        · rw [if_pos hp]
          rcases hin with ⟨w, hw, hcw⟩ | h2 | h3
          · exact .inl ⟨w, List.mem_append_left _ hw, hcw⟩
          · exact .inl ⟨st.2.1, List.mem_append_right _ (List.mem_singleton.mpr rfl), h2⟩
          · rcases List.mem_cons.mp h3 with rfl | h4
            · exact .inr (.inl (List.mem_singleton.mpr rfl))
            · exact .inr (.inr h4)
        · rw [if_neg hp]
          rcases hin with h1 | h2 | h3
          · exact .inl h1
          · exact .inr (.inl (List.mem_append_left _ (List.mem_append_left _ h2)))
          · rcases List.mem_cons.mp h3 with rfl | h4
            · exact .inr (.inl (List.mem_append_right _ (List.mem_singleton.mpr rfl)))
            · exact .inr (.inr h4)

theorem splitBlank_cover (s : List Char) (c : Char) (hcs : c ∈ s) (hc : isWS c = false) :
    ∃ p ∈ splitBlank s, c ∈ p :=
  splitBlank_covers s ([], [], 0) c hc (.inr (.inr hcs))

theorem splitBlank_chars :
    ∀ (s : List Char) (st : List (List Char) × List Char × Nat) (p : List Char) (c : Char),
      p ∈ sbFinish (s.foldl sbStep st) → c ∈ p → isWS c = false →
      (∃ w ∈ st.1, c ∈ w) ∨ c ∈ st.2.1 ∨ c ∈ s := by
  intro s
  induction s with
  | nil =>
      intro st p c hp hcp hc
      unfold sbFinish at hp
      split at hp
      · rcases List.mem_append.mp hp with h1 | h2
        · exact .inl ⟨p, h1, hcp⟩
        · rcases List.mem_cons.mp h2 with rfl | h3
          · exact .inr (.inl hcp)
          · rw [List.mem_singleton.mp h3] at hcp
            cases hcp
      · rcases List.mem_append.mp hp with h1 | h2
        · exact .inl ⟨p, h1, hcp⟩
        · rw [List.mem_singleton.mp h2] at hcp
          rcases List.mem_append.mp hcp with h3 | h4
          · exact .inr (.inl h3)
          · rw [List.eq_of_mem_replicate h4] at hc
            cases hc
  | cons x s ih =>
      intro st p c hp hcp hc
      have hback := ih (sbStep st x) p c hp hcp hc
      unfold sbStep at hback
      by_cases hx : x = '\n'
      · rw [if_pos hx] at hback
        rcases hback with h1 | h2 | h3
        · exact .inl h1
        · exact .inr (.inl h2)
        · exact .inr (.inr (List.mem_cons_of_mem _ h3))
      · rw [if_neg hx] at hback
        by_cases hpd : 2 ≤ st.2.2
        · rw [if_pos hpd] at hback
          rcases hback with ⟨w, hw, hcw⟩ | h2 | h3
          · rcases List.mem_append.mp hw with h4 | h5
            · exact .inl ⟨w, h4, hcw⟩
            · rw [List.mem_singleton.mp h5] at hcw
              exact .inr (.inl hcw)
          · rw [List.mem_singleton.mp h2] at *
            exact .inr (.inr (List.mem_cons_self _ _))
          · exact .inr (.inr (List.mem_cons_of_mem _ h3))
        · rw [if_neg hpd] at hback
          rcases hback with h1 | h2 | h3
          · exact .inl h1
          · rcases List.mem_append.mp h2 with h4 | h5
            · rcases List.mem_append.mp h4 with h6 | h7
              · exact .inr (.inl h6)
              · rw [List.eq_of_mem_replicate h7] at hc
                cases hc
            · rw [List.mem_singleton.mp h5]
              exact .inr (.inr (List.mem_cons_self _ _))
          · exact .inr (.inr (List.mem_cons_of_mem _ h3))

theorem splitBlank_mem_chars (s p : List Char) (c : Char) (hp : p ∈ splitBlank s)
    (hc : c ∈ p) (hw : isWS c = false) : c ∈ s := by
  rcases splitBlank_chars s ([], [], 0) p c hp hc hw with ⟨w, hw', _⟩ | h | h
  · cases hw'
  · cases h
  · exact h

theorem splitBlank_ne_nil (s : List Char) : splitBlank s ≠ [] := by
  unfold splitBlank sbFinish
  split <;> simp

theorem hardSplitF_length_le :
    ∀ (fuel max : Nat) (l : List Char), ∀ p ∈ hardSplitF fuel max l, p.length ≤ max := by
  intro fuel
  induction fuel with
  | zero => intro max l p hp; cases hp
  | succ fuel ih =>
      intro max l p hp
      cases l with
      | nil => cases hp
      | cons x xs =>
          rcases List.mem_cons.mp hp with rfl | h2
          · simp
          · exact ih max ((x :: xs).drop max) p h2

theorem hardSplitF_ne_nil :
    ∀ (fuel max : Nat) (l : List Char), 1 ≤ max → ∀ p ∈ hardSplitF fuel max l, p ≠ [] := by
  intro fuel
  induction fuel with
  | zero => intro max l _ p hp; cases hp
  | succ fuel ih =>
      intro max l hmax p hp
      cases l with
      | nil => cases hp
      | cons x xs =>
          rcases List.mem_cons.mp hp with rfl | h2
          · intro h
            rcases List.take_eq_nil_iff.mp h with h1 | h1
            · omega
            · cases h1
          · exact ih max ((x :: xs).drop max) hmax p h2

theorem hardSplitF_chars :
    ∀ (fuel max : Nat) (l : List Char), ∀ p ∈ hardSplitF fuel max l, ∀ c ∈ p, c ∈ l := by
  intro fuel
  induction fuel with
  | zero => intro max l p hp; cases hp
  | succ fuel ih =>
      intro max l p hp c hc
      cases l with
      | nil => cases hp
      | cons x xs =>
          rcases List.mem_cons.mp hp with rfl | h2
          · exact List.mem_of_mem_take hc
          · exact List.mem_of_mem_drop (ih max ((x :: xs).drop max) p h2 c hc)

theorem hardSplit_ne_nil_of_long (max : Nat) (w : List Char) (h : max < w.length) :
    hardSplit max w ≠ [] := by
  cases w with
  | nil => simp at h
  | cons x xs => simp [hardSplit, hardSplitF]

theorem splitByLength_le (str : List Char) (max : Nat) :
    ∀ p ∈ splitByLength str max, p.length ≤ max := by
  have hinv := foldl_invariant (splitWordStep max)
    (fun st => (∀ p ∈ st.1, p.length ≤ max) ∧ st.2.length ≤ max)
    (splitWS str) ([], [])
    ⟨fun p hp => absurd hp (List.not_mem_nil p), Nat.zero_le max⟩
    (fun st w _ hP => by
      unfold splitWordStep
      by_cases h1 : max < w.length
      · rw [if_pos h1]
        refine ⟨?_, Nat.zero_le max⟩
        intro p hp
        rcases List.mem_append.mp hp with h2 | h3
        · by_cases hcur : st.2 ≠ []
          · rw [if_pos hcur] at h2
            rcases List.mem_append.mp h2 with h4 | h5
            · exact hP.1 p h4
            · rw [List.mem_singleton.mp h5]
              exact Nat.le_trans (length_trim_le st.2) hP.2
          · rw [if_neg hcur] at h2
            exact hP.1 p h2
        · exact hardSplitF_length_le w.length max w p h3
      · rw [if_neg h1]
        by_cases h2 : max < st.2.length + w.length + 1
        · rw [if_pos h2]
          refine ⟨?_, by dsimp only; omega⟩
          intro p hp
          by_cases hcur : st.2 ≠ []
          · rw [if_pos hcur] at hp
            rcases List.mem_append.mp hp with h4 | h5
            · exact hP.1 p h4
            · rw [List.mem_singleton.mp h5]
              exact Nat.le_trans (length_trim_le st.2) hP.2
          · rw [if_neg hcur] at hp
            exact hP.1 p hp
        · rw [if_neg h2]
          refine ⟨hP.1, ?_⟩
          dsimp only
          by_cases hcur : st.2 = []
          · rw [if_pos hcur]
            omega
          · rw [if_neg hcur]
            simp only [List.length_append, List.length_cons]
            omega)
  intro p hp
  simp only [splitByLength] at hp
  split at hp
  · rcases List.mem_append.mp hp with h1 | h2
    · exact hinv.1 p h1
    · rw [List.mem_singleton.mp h2]
      exact Nat.le_trans (length_trim_le _) hinv.2
  · exact hinv.1 p hp

theorem splitByLength_ne_nil (str : List Char) (max : Nat) (hmax : 1 ≤ max) :
    ∀ p ∈ splitByLength str max, p ≠ [] := by
  have hinv := foldl_invariant (splitWordStep max)
    (fun st => (∀ p ∈ st.1, p ≠ []) ∧ (st.2 = [] ∨ st.2.any (fun c => ! isWS c) = true))
    (splitWS str) ([], [])
    ⟨fun p hp => absurd hp (List.not_mem_nil p), .inl rfl⟩
    (fun st w hw hP => by
      have hnw : ∀ c ∈ w, isWS c = false := splitWS_no_ws str w hw
      have hflush : ∀ p ∈ (if st.2 ≠ [] then st.1 ++ [trim st.2] else st.1), p ≠ [] := by
        intro p hp
        by_cases hcur : st.2 ≠ []
        · rw [if_pos hcur] at hp
          rcases List.mem_append.mp hp with h1 | h2
          · exact hP.1 p h1
          · rw [List.mem_singleton.mp h2]
            rcases hP.2 with h3 | h3
            · exact absurd h3 hcur
            · exact (trim_ne_nil_iff st.2).mpr h3
        · rw [if_neg hcur] at hp
          exact hP.1 p hp
      have hwany : w = [] ∨ w.any (fun c => ! isWS c) = true := by
        cases w with
        | nil => exact .inl rfl
        | cons c cs =>
            refine .inr ?_
            simp [List.any_cons, hnw c (List.mem_cons_self c cs)]
      unfold splitWordStep
      by_cases h1 : max < w.length
      · rw [if_pos h1]
        refine ⟨?_, .inl rfl⟩
        intro p hp
        rcases List.mem_append.mp hp with h2 | h3
        · exact hflush p h2
        · exact hardSplitF_ne_nil w.length max w hmax p h3
      · rw [if_neg h1]
        by_cases h2 : max < st.2.length + w.length + 1
        · rw [if_pos h2]
          exact ⟨hflush, hwany⟩
        · rw [if_neg h2]
          refine ⟨hP.1, ?_⟩
          dsimp only
          by_cases hcur : st.2 = []
          · rw [if_pos hcur]
            exact hwany
          · rw [if_neg hcur]
            rcases hP.2 with h3 | h3
            · exact absurd h3 hcur
            · exact .inr (by simp [List.any_append, h3]))
  intro p hp
  simp only [splitByLength] at hp
  by_cases hcond : trim ((splitWS str).foldl (splitWordStep max) ([], [])).2 ≠ []
  · rw [if_pos hcond] at hp
    rcases List.mem_append.mp hp with h1 | h2
    · exact hinv.1 p h1
    · rw [List.mem_singleton.mp h2]
      exact hcond
  · rw [if_neg hcond] at hp
    exact hinv.1 p hp

theorem splitByLength_trim (str : List Char) (max : Nat) :
    ∀ p ∈ splitByLength str max, trim p = p := by
  have hinv := foldl_invariant (splitWordStep max)
    (fun st => ∀ p ∈ st.1, trim p = p)
    (splitWS str) ([], [])
    (fun p hp => absurd hp (List.not_mem_nil p))
    (fun st w hw hP => by
      have hnw : ∀ c ∈ w, isWS c = false := splitWS_no_ws str w hw
      have hflush : ∀ p ∈ (if st.2 ≠ [] then st.1 ++ [trim st.2] else st.1), trim p = p := by
        intro p hp
        by_cases hcur : st.2 ≠ []
        · rw [if_pos hcur] at hp
          rcases List.mem_append.mp hp with h1 | h2
          · exact hP p h1
          · rw [List.mem_singleton.mp h2]
            exact trim_idem st.2
        · rw [if_neg hcur] at hp
          exact hP p hp
      unfold splitWordStep
      by_cases h1 : max < w.length
      · rw [if_pos h1]
        intro p hp
        rcases List.mem_append.mp hp with h2 | h3
        · exact hflush p h2
        · refine trim_eq_self_of_no_ws p (fun c hc => ?_)
          exact hnw c (hardSplitF_chars w.length max w p h3 c hc)
      · rw [if_neg h1]
        by_cases h2 : max < st.2.length + w.length + 1
        · rw [if_pos h2]
          exact hflush
        · rw [if_neg h2]
          exact hP)
  intro p hp
  simp only [splitByLength] at hp
  by_cases hcond : trim ((splitWS str).foldl (splitWordStep max) ([], [])).2 ≠ []
  · rw [if_pos hcond] at hp
    rcases List.mem_append.mp hp with h1 | h2
    · exact hinv p h1
    · rw [List.mem_singleton.mp h2]
      exact trim_idem _
  · rw [if_neg hcond] at hp
    exact hinv p hp

theorem splitWordFold_nil (max : Nat) :
    ∀ (words : List (List Char)) (st : List (List Char) × List Char),
      (words.foldl (splitWordStep max) st).1 = [] →
      trim (words.foldl (splitWordStep max) st).2 = [] →
      st.1 = [] ∧ trim st.2 = [] ∧ ∀ w ∈ words, ∀ c ∈ w, isWS c = true := by
  intro words
  induction words with
  | nil =>
      intro st h1 h2
      exact ⟨h1, h2, fun w hw => absurd hw (List.not_mem_nil w)⟩
  | cons w ws ih =>
      intro st h1 h2
      obtain ⟨hs1, hs2, hws⟩ := ih (splitWordStep max st w) h1 h2
      unfold splitWordStep at hs1 hs2
      by_cases hb1 : max < w.length
      · rw [if_pos hb1] at hs1
        exfalso
        dsimp only at hs1
        rcases List.append_eq_nil.mp hs1 with ⟨_, hhs⟩
        exact hardSplit_ne_nil_of_long max w hb1 hhs
      · rw [if_neg hb1] at hs1 hs2
        by_cases hb2 : max < st.2.length + w.length + 1
        · rw [if_pos hb2] at hs1 hs2
          dsimp only at hs1 hs2
          by_cases hcur : st.2 ≠ []
          · rw [if_pos hcur] at hs1
            exact absurd hs1 (by simp)
          · rw [if_neg hcur] at hs1
            refine ⟨hs1, ?_, ?_⟩
            · rw [not_not.mp hcur]
              rfl
            · intro w' hw' c hc
              rcases List.mem_cons.mp hw' with rfl | h3
              · exact (trim_eq_nil_iff w').mp hs2 c hc
              · exact hws w' h3 c hc
        · rw [if_neg hb2] at hs1 hs2
          dsimp only at hs1 hs2
          by_cases hcur : st.2 = []
          · rw [if_pos hcur] at hs2
            refine ⟨hs1, by rw [hcur]; rfl, ?_⟩
            intro w' hw' c hc
            rcases List.mem_cons.mp hw' with rfl | h3
            · exact (trim_eq_nil_iff w').mp hs2 c hc
            · exact hws w' h3 c hc
          · rw [if_neg hcur] at hs2
            have hall := (trim_eq_nil_iff _).mp hs2
            refine ⟨hs1, ?_, ?_⟩
            · refine (trim_eq_nil_iff st.2).mpr (fun c hc => ?_)
              exact hall c (List.mem_append_left _ hc)
            · intro w' hw' c hc
              rcases List.mem_cons.mp hw' with rfl | h3
              · exact hall c (List.mem_append_right _ (List.mem_cons_of_mem _ hc))
              · exact hws w' h3 c hc

theorem splitByLength_eq_nil (str : List Char) (max : Nat)
    (h : splitByLength str max = []) : ∀ c ∈ str, isWS c = true := by
  simp only [splitByLength] at h
  have hparts : ((splitWS str).foldl (splitWordStep max) ([], [])).1 = [] ∧
      trim ((splitWS str).foldl (splitWordStep max) ([], [])).2 = [] := by
    by_cases hcond : trim ((splitWS str).foldl (splitWordStep max) ([], [])).2 ≠ []
    · rw [if_pos hcond] at h
      exact absurd h (by simp)
    · rw [if_neg hcond] at h
      exact ⟨h, not_not.mp hcond⟩
  obtain ⟨_, _, hwords⟩ := splitWordFold_nil max (splitWS str) ([], []) hparts.1 hparts.2
  intro c hc
  by_contra hcf
  have hcfalse : isWS c = false := by simpa using hcf
  obtain ⟨w, hw, hcw⟩ := splitWS_cover str c hc hcfalse
  have := hwords w hw c hcw
  rw [this] at hcfalse
  cases hcfalse

/-- Claim C2 counterexample: two 2-character paragraphs are packed with a
blank-line separator whose two characters are not counted against
`maxLength`, producing a 6-character chunk for `maxLength = 5`. -/
theorem chunk_exceeds_maxLength_cex :
    chunkText (['a', 'b', '\n', '\n', 'c', 'd']) 5 = [['a', 'b', '\n', '\n', 'c', 'd']] ∧
    5 < (['a', 'b', '\n', '\n', 'c', 'd'] : List Char).length := by
  decide

/-- Claim C2 amended: every chunk of `chunkText text maxLength` has length at
most `maxLength + 2` — the packing check does not count the 2-character
blank-line separator, so a packed chunk may exceed `maxLength` by up to 2
(hard-split pieces and the fallback stay within `maxLength` itself). -/
theorem chunkText_length_le (text : List Char) (max : Nat) (_htext : text ≠ [])
    (_hmax : 1 ≤ max) : ∀ ch ∈ chunkText text max, ch.length ≤ max + 2 := by
  have hinv := foldl_invariant (chunkStep max)
    (fun st => (∀ p ∈ st.1, p.length ≤ max + 2) ∧ st.2.length ≤ max + 2)
    (splitBlank text) ([], [])
    ⟨fun p hp => absurd hp (List.not_mem_nil p), by simp⟩
    (fun st para _ hP => by
      have hflush : ∀ p ∈ (if st.2 ≠ [] then st.1 ++ [trim st.2] else st.1),
          p.length ≤ max + 2 := by
        intro p hp
        by_cases hcur : st.2 ≠ []
        · rw [if_pos hcur] at hp
          rcases List.mem_append.mp hp with h1 | h2
          · exact hP.1 p h1
          · rw [List.mem_singleton.mp h2]
            exact Nat.le_trans (length_trim_le st.2) hP.2
        · rw [if_neg hcur] at hp
          exact hP.1 p hp
      unfold chunkStep
      by_cases h1 : max < para.length
      · rw [if_pos h1]
        refine ⟨?_, by simp⟩
        intro p hp
        rcases List.mem_append.mp hp with h2 | h3
        · exact hflush p h2
        · exact Nat.le_trans (splitByLength_le para max p h3) (by omega)
      · rw [if_neg h1]
        by_cases h2 : max < st.2.length + para.length ∧ st.2 ≠ []
        · rw [if_pos h2]
          dsimp only
          refine ⟨?_, by omega⟩
          intro p hp
          rcases List.mem_append.mp hp with h3 | h4
          · exact hP.1 p h3
          · rw [List.mem_singleton.mp h4]
            exact Nat.le_trans (length_trim_le st.2) hP.2
        · rw [if_neg h2]
          refine ⟨hP.1, ?_⟩
          dsimp only
          by_cases hcur : st.2 = []
          · rw [if_pos hcur]
            omega
          · rw [if_neg hcur]
            have h3 : ¬ max < st.2.length + para.length := fun hlt => h2 ⟨hlt, hcur⟩
            simp only [List.length_append, List.length_cons]
            omega)
  intro ch hch
  simp only [chunkText] at hch
  by_cases hcond : trim ((splitBlank text).foldl (chunkStep max) ([], [])).2 ≠ []
  · rw [if_pos hcond, if_pos (by simp)] at hch
    rcases List.mem_append.mp hch with h1 | h2
    · exact hinv.1 ch h1
    · rw [List.mem_singleton.mp h2]
      exact Nat.le_trans (length_trim_le _) hinv.2
  · rw [if_neg hcond] at hch
    by_cases hne : ((splitBlank text).foldl (chunkStep max) ([], [])).1 ≠ []
    · rw [if_pos hne] at hch
      exact hinv.1 ch hch
    · rw [if_neg hne] at hch
      rw [List.mem_singleton.mp hch, List.length_take]
      omega

theorem chunkText_length_le_witness :
    (['a'] : List Char).length ≤ 1 + 2 :=
  chunkText_length_le (['a']) 1 (by decide) (by decide) (['a']) (by decide)

/-- Claim C8 counterexample: for the non-empty text `" \n\nab"` with
`maxLength = 1`, the whitespace-only first paragraph is flushed as the
empty chunk, so the result contains an empty string (a whitespace-only
input likewise yields the single empty chunk). -/
theorem chunk_empty_cex :
    ([' ', '\n', '\n', 'a', 'b'] : List Char) ≠ [] ∧
    chunkText ([' ', '\n', '\n', 'a', 'b']) 1 = [[], ['a'], ['b']] ∧
    chunkText ([' ']) 1 = [[]] := by
  decide

/-- Claim C8 amended: no chunk is empty provided every blank-line-separated
paragraph of the text has a non-empty trim (contains a non-whitespace
character); a text with a whitespace-only paragraph — including
whitespace-only input, whose fallback result is the single empty chunk —
can produce empty chunks. -/
theorem chunkText_ne_nil (text : List Char) (max : Nat) (_htext : text ≠ [])
    (hmax : 1 ≤ max) (hpar : ∀ p ∈ splitBlank text, trim p ≠ []) :
    ∀ ch ∈ chunkText text max, ch ≠ [] := by
  have hinv := foldl_invariant (chunkStep max)
    (fun st => (∀ p ∈ st.1, p ≠ []) ∧ (st.2 = [] ∨ st.2.any (fun c => ! isWS c) = true))
    (splitBlank text) ([], [])
    ⟨fun p hp => absurd hp (List.not_mem_nil p), .inl rfl⟩
    (fun st para hpara hP => by
      have hpany : para.any (fun c => ! isWS c) = true :=
        (trim_ne_nil_iff para).mp (hpar para hpara)
      have hflush : ∀ p ∈ (if st.2 ≠ [] then st.1 ++ [trim st.2] else st.1), p ≠ [] := by
        intro p hp
        by_cases hcur : st.2 ≠ []
        · rw [if_pos hcur] at hp
          rcases List.mem_append.mp hp with h1 | h2
          · exact hP.1 p h1
          · rw [List.mem_singleton.mp h2]
            rcases hP.2 with h3 | h3
            · exact absurd h3 hcur
            · exact (trim_ne_nil_iff st.2).mpr h3
        · rw [if_neg hcur] at hp
          exact hP.1 p hp
      unfold chunkStep
      by_cases h1 : max < para.length
      · rw [if_pos h1]
        refine ⟨?_, .inl rfl⟩
        intro p hp
        rcases List.mem_append.mp hp with h2 | h3
        · exact hflush p h2
        · exact splitByLength_ne_nil para max hmax p h3
      · rw [if_neg h1]
        by_cases h2 : max < st.2.length + para.length ∧ st.2 ≠ []
        · rw [if_pos h2]
          dsimp only
          refine ⟨?_, .inr hpany⟩
          intro p hp
          rcases List.mem_append.mp hp with h3 | h4
          · exact hP.1 p h3
          · rw [List.mem_singleton.mp h4]
            rcases hP.2 with h5 | h5
            · exact absurd h5 h2.2
            · exact (trim_ne_nil_iff st.2).mpr h5
        · rw [if_neg h2]
          refine ⟨hP.1, ?_⟩
          dsimp only
          by_cases hcur : st.2 = []
          · rw [if_pos hcur]
            exact .inr hpany
          · rw [if_neg hcur]
            refine .inr ?_
            rw [List.any_append]
            rcases hP.2 with h3 | h3
            · exact absurd h3 hcur
            · rw [h3]
              rfl)
  have htrtext : trim text ≠ [] := by
    obtain ⟨p0, hp0⟩ := List.exists_mem_of_ne_nil _ (splitBlank_ne_nil text)
    obtain ⟨c, hc, hnc⟩ := List.any_eq_true.mp ((trim_ne_nil_iff p0).mp (hpar p0 hp0))
    refine (trim_ne_nil_iff text).mpr (List.any_eq_true.mpr ⟨c, ?_, hnc⟩)
    exact splitBlank_mem_chars text p0 c hp0 hc (by simpa using hnc)
  intro ch hch
  simp only [chunkText] at hch
  by_cases hcond : trim ((splitBlank text).foldl (chunkStep max) ([], [])).2 ≠ []
  · rw [if_pos hcond, if_pos (by simp)] at hch
    rcases List.mem_append.mp hch with h1 | h2
    · exact hinv.1 ch h1
    · rw [List.mem_singleton.mp h2]
      exact hcond
  · rw [if_neg hcond] at hch
    by_cases hne : ((splitBlank text).foldl (chunkStep max) ([], [])).1 ≠ []
    · rw [if_pos hne] at hch
      exact hinv.1 ch hch
    · rw [if_neg hne] at hch
      rw [List.mem_singleton.mp hch]
      intro hemp
      rcases List.take_eq_nil_iff.mp hemp with h1 | h1
      · omega
      · exact htrtext h1

theorem chunkText_ne_nil_witness :
    (['a'] : List Char) ≠ [] :=
  chunkText_ne_nil (['a', '\n', '\n', 'b']) 1 (by decide) (by decide) (by decide)
    (['a']) (by decide)

theorem chunkFold_nil (max : Nat) :
    ∀ (paras : List (List Char)) (st : List (List Char) × List Char),
      (paras.foldl (chunkStep max) st).1 = [] →
      trim (paras.foldl (chunkStep max) st).2 = [] →
      st.1 = [] ∧ trim st.2 = [] ∧ ∀ p ∈ paras, ∀ c ∈ p, isWS c = true := by
  intro paras
  induction paras with
  | nil =>
      intro st h1 h2
      exact ⟨h1, h2, fun p hp => absurd hp (List.not_mem_nil p)⟩
  | cons para ps ih =>
      intro st h1 h2
      obtain ⟨hs1, hs2, hps⟩ := ih (chunkStep max st para) h1 h2
      unfold chunkStep at hs1 hs2
      by_cases hb1 : max < para.length
      · rw [if_pos hb1] at hs1 hs2
        dsimp only at hs1 hs2
        rcases List.append_eq_nil.mp hs1 with ⟨hfl, hsp⟩
        have hpara : ∀ c ∈ para, isWS c = true := splitByLength_eq_nil para max hsp
        by_cases hcur : st.2 ≠ []
        · rw [if_pos hcur] at hfl
          exact absurd hfl (by simp)
        · rw [if_neg hcur] at hfl
          refine ⟨hfl, ?_, ?_⟩
          · rw [not_not.mp hcur]
            rfl
          · intro p hp c hc
            rcases List.mem_cons.mp hp with rfl | h3
            · exact hpara c hc
            · exact hps p h3 c hc
      · rw [if_neg hb1] at hs1 hs2
        by_cases hb2 : max < st.2.length + para.length ∧ st.2 ≠ []
        · rw [if_pos hb2] at hs1
          exact absurd hs1 (by simp)
        · rw [if_neg hb2] at hs1 hs2
          dsimp only at hs1 hs2
          by_cases hcur : st.2 = []
          · rw [if_pos hcur] at hs2
            refine ⟨hs1, by rw [hcur]; rfl, ?_⟩
            intro p hp c hc
            rcases List.mem_cons.mp hp with rfl | h3
            · exact (trim_eq_nil_iff p).mp hs2 c hc
            · exact hps p h3 c hc
          · rw [if_neg hcur] at hs2
            have hall := (trim_eq_nil_iff _).mp hs2
            refine ⟨hs1, ?_, ?_⟩
            · refine (trim_eq_nil_iff st.2).mpr (fun c hc => ?_)
              exact hall c (List.mem_append_left _ hc)
            · intro p hp c hc
              rcases List.mem_cons.mp hp with rfl | h3
              · exact hall c
                  (List.mem_append_right _ (List.mem_cons_of_mem _ (List.mem_cons_of_mem _ hc)))
              · exact hps p h3 c hc

/-- Claim C10: every chunk returned by `chunkText` equals its own trim — no
chunk carries leading or trailing whitespace (the fallback element for an
all-whitespace input is the empty string, which is its own trim). -/
theorem chunkText_trimmed (text : List Char) (max : Nat) (_hmax : 1 ≤ max) :
    ∀ ch ∈ chunkText text max, trim ch = ch := by
  have hinv := foldl_invariant (chunkStep max)
    (fun st => ∀ p ∈ st.1, trim p = p)
    (splitBlank text) ([], [])
    (fun p hp => absurd hp (List.not_mem_nil p))
    (fun st para _ hP => by
      have hflush : ∀ p ∈ (if st.2 ≠ [] then st.1 ++ [trim st.2] else st.1),
          trim p = p := by
        intro p hp
        by_cases hcur : st.2 ≠ []
        · rw [if_pos hcur] at hp
          rcases List.mem_append.mp hp with h1 | h2
          · exact hP p h1
          · rw [List.mem_singleton.mp h2]
            exact trim_idem st.2
        · rw [if_neg hcur] at hp
          exact hP p hp
      unfold chunkStep
      by_cases h1 : max < para.length
      · rw [if_pos h1]
        intro p hp
        rcases List.mem_append.mp hp with h2 | h3
        · exact hflush p h2
        · exact splitByLength_trim para max p h3
      · rw [if_neg h1]
        by_cases h2 : max < st.2.length + para.length ∧ st.2 ≠ []
        · rw [if_pos h2]
          dsimp only
          intro p hp
          rcases List.mem_append.mp hp with h3 | h4
          · exact hP p h3
          · rw [List.mem_singleton.mp h4]
            exact trim_idem st.2
        · rw [if_neg h2]
          exact hP)
  intro ch hch
  simp only [chunkText] at hch
  by_cases hcond : trim ((splitBlank text).foldl (chunkStep max) ([], [])).2 ≠ []
  · rw [if_pos hcond, if_pos (by simp)] at hch
    rcases List.mem_append.mp hch with h1 | h2
    · exact hinv ch h1
    · rw [List.mem_singleton.mp h2]
      exact trim_idem _
  · rw [if_neg hcond] at hch
    by_cases hne : ((splitBlank text).foldl (chunkStep max) ([], [])).1 ≠ []
    · rw [if_pos hne] at hch
      exact hinv ch hch
    · rw [if_neg hne] at hch
      obtain ⟨_, _, hparas⟩ := chunkFold_nil max (splitBlank text) ([], [])
        (not_not.mp hne) (not_not.mp hcond)
      have htext : ∀ c ∈ text, isWS c = true := by
        intro c hc
        by_contra hcf
        obtain ⟨p, hp, hcp⟩ := splitBlank_cover text c hc (by simpa using hcf)
        have := hparas p hp c hcp
        simp [this] at hcf
      have htr : trim text = [] := (trim_eq_nil_iff text).mpr htext
      rw [List.mem_singleton.mp hch, htr, List.take_nil]
      rfl

theorem chunkText_trimmed_witness :
    trim (['a']) = (['a'] : List Char) :=
  chunkText_trimmed (['a', ' ', 'b']) 1 (by decide) (['a']) (by decide)

end MiniWs
